import Mathlib

/-!
Verification of the ChessDashboardReact frontend (`src/App.js` and its
variants).  JavaScript strings are modelled as `List Char`; the regex-based
text transformations of the source are translated into explicit scanners
that implement the exact semantics of the JavaScript regular expressions
used by the code.  The external chess library (chess.js) and the Stockfish
engine worker are modelled as oracles (structure fields), because they are
external collaborators of the repository.
-/

/-- Characters of a `String` literal, as the JS-string model. -/
def chars (s : String) : List Char := s.data

/-- JS `\s` (whitespace) character class, restricted to the ASCII range that
the dashboard's inputs use. -/
def wsChar (c : Char) : Bool :=
  c = ' ' || c = '\t' || c = '\n' || c = '\r' || c = '\x0b' || c = '\x0c'

/-- JS `\w` (word) character class: `[A-Za-z0-9_]`. -/
def wordChar (c : Char) : Bool :=
  ('a' ≤ c && c ≤ 'z') || ('A' ≤ c && c ≤ 'Z') || ('0' ≤ c && c ≤ '9') || c = '_'

/-- JS `\d` (digit) character class: `[0-9]`. -/
def digChar (c : Char) : Bool :=
  '0' ≤ c && c ≤ '9'

/-- The character class `[\r\n\t]` used by the movetext whitespace
normalisation regex. -/
def rntChar (c : Char) : Bool :=
  c = '\r' || c = '\n' || c = '\t'

/-- `String.prototype.trim()`: remove leading and trailing whitespace. -/
def jsTrim (s : List Char) : List Char :=
  ((s.dropWhile wsChar).reverse.dropWhile wsChar).reverse

/-- Whether `pat` occurs as a contiguous substring of `s`
(JS `String.prototype.includes`). -/
def containsSeq (pat : List Char) (s : List Char) : Bool :=
  match s with
  | [] => pat.isEmpty
  | _ :: r => pat.isPrefixOf s || containsSeq pat r

/-- The opening-brace character (written by code point to keep it out of
string-literal position). -/
def obr : Char := '\x7b'

/-- The closing-brace character. -/
def cbr : Char := '\x7d'

/--
The sanitizer's delimiter-removal regexes.  `stripDelims o c` is the JS
`s.replace(pat, '')` for the pattern matching `o`, then a lazy run of
non-`c` characters, then `c` (with `g` flag): scanning left to right, each
occurrence of an `o` followed (possibly after other characters, none equal
to `c`) by a `c` is deleted; an `o` with no later `c` can never be part of
a match, and no later position can start a match either, so the remainder
of the string is kept verbatim.  Instantiated with braces this is
`.replace(/\x7b[^\x7d]*?\x7d/g, '')` and with parentheses
`.replace(/\([^)]*?\)/g, '')` from `handleLoadPgn`.
-/
def stripDelims (o c : Char) (s : List Char) : List Char :=
  match s with
  | [] => []
  | x :: r =>
    if x = o then
      if (r.dropWhile (· ≠ c)).isEmpty then x :: r
      else stripDelims o c (r.dropWhile (· ≠ c)).tail
    else x :: stripDelims o c r
termination_by s.length
decreasing_by
  · simp only [List.length_cons]
    exact Nat.lt_succ_of_le (by
      rw [List.length_tail]
      exact le_trans (Nat.sub_le _ _) (List.dropWhile_sublist _).length_le)
  · simp

/-- `.replace(/\$\d+/g, '')` from `handleLoadPgn`: delete each `$` that is
immediately followed by at least one digit, together with the maximal digit
run after it. -/
def stripNags (s : List Char) : List Char :=
  match s with
  | [] => []
  | x :: r =>
    if x = '$' then
      if (r.takeWhile digChar).isEmpty then x :: stripNags r
      else stripNags (r.dropWhile digChar)
    else x :: stripNags r
termination_by s.length
decreasing_by
  · simp
  · have h2 : (List.dropWhile digChar r).Sublist r := List.dropWhile_sublist _
    have h3 := h2.length_le
    simp
    omega
  · simp

/-- `.replace(/[\r\n\t]+/g, ' ')` from `handleLoadPgn`: replace each maximal
run of carriage-return/newline/tab characters by a single space. -/
def collapseWs (s : List Char) : List Char :=
  match s with
  | [] => []
  | x :: r =>
    if rntChar x then ' ' :: collapseWs (r.dropWhile rntChar)
    else x :: collapseWs r
termination_by s.length
decreasing_by
  · have h2 : (List.dropWhile rntChar r).Sublist r := List.dropWhile_sublist _
    have h3 := h2.length_le
    simp
    omega
  · simp

/-- The character class `[^"]` (anything but a double quote). -/
def notQuote (c : Char) : Bool := c ≠ '"'

/-- The pieces of one match of the PGN tag regex
`/\[\s*(\w+)\s*"([^"]*)"\s*\]/`: leading whitespace, tag name, whitespace
between name and quote, quoted value, whitespace before the closing
bracket. -/
structure TagParts where
  w1 : List Char
  nm : List Char
  w2 : List Char
  vl : List Char
  w3 : List Char

/-- The substring of the input covered by a tag match. -/
def tagOfParts (p : TagParts) : List Char :=
  '[' :: p.w1 ++ p.nm ++ p.w2 ++ '"' :: p.vl ++ '"' :: p.w3 ++ [']']

/-- Well-formedness of the pieces of a tag match: exactly the shape imposed
by the regex `/\[\s*(\w+)\s*"([^"]*)"\s*\]/`. -/
def wfParts (p : TagParts) : Bool :=
  p.w1.all wsChar && !p.nm.isEmpty && p.nm.all wordChar && p.w2.all wsChar &&
    p.vl.all notQuote && p.w3.all wsChar

/--
Match the PGN tag regex `/\[\s*(\w+)\s*"([^"]*)"\s*\]/` at the head of `s`.
On success, return the pieces of the match together with the rest of the
string.  All the quantifiers in this regex are determined (each character
class is disjoint from the delimiter that follows it), so the greedy
matching below implements the JS semantics exactly.
-/
def matchTag (s : List Char) : Option (TagParts × List Char) :=
  match s with
  | '[' :: r1 =>
    match (r1.dropWhile wsChar).takeWhile wordChar with
    | [] => none
    | _ :: _ =>
      match ((r1.dropWhile wsChar).dropWhile wordChar).dropWhile wsChar with
      | '"' :: r5 =>
        match r5.dropWhile notQuote with
        | '"' :: r7 =>
          match r7.dropWhile wsChar with
          | ']' :: r9 =>
            some (⟨r1.takeWhile wsChar,
                   (r1.dropWhile wsChar).takeWhile wordChar,
                   ((r1.dropWhile wsChar).dropWhile wordChar).takeWhile wsChar,
                   r5.takeWhile notQuote,
                   r7.takeWhile wsChar⟩, r9)
          | _ => none
        | _ => none
      | _ => none
  | _ => none

/-- A successful `matchTag` splits the input into a well-formed tag pair
followed by the rest. -/
theorem matchTag_spec {s : List Char} {p : TagParts} {r : List Char}
    (h : matchTag s = some (p, r)) :
    s = tagOfParts p ++ r ∧ wfParts p = true := by
  unfold matchTag at h
  split at h
  · rename_i r1
    split at h
    · exact absurd h (by simp)
    · rename_i nmh nmt hnm
      split at h
      · rename_i r5 hr4
        split at h
        · rename_i r7 hr6
          split at h
          · rename_i r9 hr8
            simp only [Option.some.injEq, Prod.mk.injEq] at h
            obtain ⟨hp, hr⟩ := h
            subst hp hr
            set A := r1.dropWhile wsChar with hA
            set B := A.dropWhile wordChar with hB
            set w1 := r1.takeWhile wsChar with hw1
            set nmL := A.takeWhile wordChar with hnmL
            set w2 := B.takeWhile wsChar with hw2
            set vlL := r5.takeWhile notQuote with hvl
            set w3 := r7.takeWhile wsChar with hw3
            have e1 : w1 ++ A = r1 := List.takeWhile_append_dropWhile ..
            have e2 : nmL ++ B = A := List.takeWhile_append_dropWhile ..
            have e3 : w2 ++ B.dropWhile wsChar = B := List.takeWhile_append_dropWhile ..
            have e4 : vlL ++ r5.dropWhile notQuote = r5 := List.takeWhile_append_dropWhile ..
            have e5 : w3 ++ r7.dropWhile wsChar = r7 := List.takeWhile_append_dropWhile ..
            constructor
            · show ('[' :: r1 : List Char) = _
              rw [tagOfParts]
              have key : r1 = w1 ++ (nmL ++ (w2 ++ ('"' :: (vlL ++ ('"' :: (w3 ++ (']' :: r9))))))) := by
                calc r1 = w1 ++ A := e1.symm
                _ = w1 ++ (nmL ++ B) := by rw [e2]
                _ = w1 ++ (nmL ++ (w2 ++ B.dropWhile wsChar)) := by rw [e3]
                _ = w1 ++ (nmL ++ (w2 ++ ('"' :: r5))) := by rw [hr4]
                _ = w1 ++ (nmL ++ (w2 ++ ('"' :: (vlL ++ r5.dropWhile notQuote)))) := by rw [e4]
                _ = w1 ++ (nmL ++ (w2 ++ ('"' :: (vlL ++ ('"' :: r7))))) := by rw [hr6]
                _ = w1 ++ (nmL ++ (w2 ++ ('"' :: (vlL ++ ('"' :: (w3 ++ r7.dropWhile wsChar)))))) := by
                  rw [e5]
                _ = w1 ++ (nmL ++ (w2 ++ ('"' :: (vlL ++ ('"' :: (w3 ++ (']' :: r9))))))) := by
                  rw [hr8]
              rw [key]
              simp [List.append_assoc]
            · rw [wfParts]
              simp only [Bool.and_eq_true, List.all_eq_true]
              refine ⟨⟨⟨⟨⟨?_, ?_⟩, ?_⟩, ?_⟩, ?_⟩, ?_⟩
              · exact fun x hx => List.mem_takeWhile_imp hx
              · simp [hnm]
              · exact fun x hx => List.mem_takeWhile_imp hx
              · exact fun x hx => List.mem_takeWhile_imp hx
              · exact fun x hx => List.mem_takeWhile_imp hx
              · exact fun x hx => List.mem_takeWhile_imp hx
          · exact absurd h (by simp)
        · exact absurd h (by simp)
      · exact absurd h (by simp)
  · exact absurd h (by simp)

/--
The global tag scan of `handleLoadPgn`:
`pgnString.match(tagRegex)` collects the tag-pair matches left to right and
`pgnString.replace(tagRegex, '')` deletes them; both walks are performed
simultaneously here, returning the list of match pieces and the text with
the matches removed.
-/
def scanTags (s : List Char) : List TagParts × List Char :=
  match s with
  | [] => ([], [])
  | x :: r =>
    match h : matchTag (x :: r) with
    | some (p, rest) =>
      let pr := scanTags rest
      (p :: pr.1, pr.2)
    | none =>
      let pr := scanTags r
      (pr.1, x :: pr.2)
termination_by s.length
decreasing_by
  · have h2 := (matchTag_spec h).1
    have h3 := congrArg List.length h2
    have h4 : 0 < (tagOfParts p).length := by rw [tagOfParts]; simp
    simp only [List.length_cons, List.length_append] at h3 ⊢
    omega
  · simp

/-- `let pgnString = pgn.trim();` in `handleLoadPgn`. -/
def pgnStringOf (pgn : List Char) : List Char := jsTrim pgn

/-- The pieces of the tag matches found by `pgnString.match(tagRegex)`. -/
def partsOf (pgn : List Char) : List TagParts := (scanTags (pgnStringOf pgn)).1

/-- `const tags = pgnString.match(tagRegex) || [];` in `handleLoadPgn`
(the matched tag-pair substrings, in order). -/
def tagsOf (pgn : List Char) : List (List Char) := (partsOf pgn).map tagOfParts

/-- `const movetext = pgnString.replace(tagRegex, '').trim();`. -/
def movetextOf (pgn : List Char) : List Char := jsTrim (scanTags (pgnStringOf pgn)).2

/-- `const cleanedMovetext = movetext.replace(...).replace(...).replace(...)
.replace(...).trim();` — remove comments, variations and NAGs, then
normalise raw whitespace and trim. -/
def cleanedMovetextOf (pgn : List Char) : List Char :=
  jsTrim (collapseWs (stripNags (stripDelims '(' ')' (stripDelims obr cbr (movetextOf pgn)))))

/-- `const cleanedPgn = tags.join('\n') + '\n\n' + cleanedMovetext;`. -/
def cleanedPgnOf (pgn : List Char) : List Char :=
  List.intercalate (chars "\n") (tagsOf pgn) ++ chars "\n\n" ++ cleanedMovetextOf pgn

/-- Unfolding: the scan at a successful match position. -/
theorem scanTags_cons_some (x : Char) (r : List Char) (p : TagParts) (rest : List Char)
    (h : matchTag (x :: r) = some (p, rest)) :
    scanTags (x :: r) = (p :: (scanTags rest).1, (scanTags rest).2) := by
  rw [scanTags]
  split
  · rename_i p2 rest2 hmt
    rw [h] at hmt
    simp only [Option.some.injEq, Prod.mk.injEq] at hmt
    obtain ⟨rfl, rfl⟩ := hmt
    rfl
  · rename_i hmt
    rw [h] at hmt
    simp at hmt

/-- Unfolding: the scan at a non-matching position. -/
theorem scanTags_cons_none (x : Char) (r : List Char)
    (h : matchTag (x :: r) = none) :
    scanTags (x :: r) = ((scanTags r).1, x :: (scanTags r).2) := by
  rw [scanTags]
  split
  · rename_i p2 rest2 hmt
    rw [h] at hmt
    simp at hmt
  · rfl

/-- Every tag-pair piece collected by the scan is well formed. -/
theorem scanTags_wf (s : List Char) : ∀ p ∈ (scanTags s).1, wfParts p = true := by
  induction s using scanTags.induct with
  | case1 => simp [scanTags]
  | case2 x r p rest h ih =>
    rw [scanTags_cons_some x r p rest h]
    intro q hq
    rcases List.mem_cons.1 hq with rfl | hq2
    · exact (matchTag_spec h).2
    · exact ih q hq2
  | case3 x r h ih =>
    rw [scanTags_cons_none x r h]
    exact ih

/-- Every tag-pair match found by the scan occurs verbatim in the input. -/
theorem scanTags_split (s : List Char) :
    ∀ p ∈ (scanTags s).1, ∃ l1 l2, s = l1 ++ tagOfParts p ++ l2 := by
  induction s using scanTags.induct with
  | case1 => simp [scanTags]
  | case2 x r p rest h ih =>
    rw [scanTags_cons_some x r p rest h]
    intro q hq
    rcases List.mem_cons.1 hq with rfl | hq2
    · exact ⟨[], rest, by simpa using (matchTag_spec h).1⟩
    · obtain ⟨l1, l2, hsplit⟩ := ih q hq2
      refine ⟨tagOfParts p ++ l1, l2, ?_⟩
      rw [(matchTag_spec h).1, hsplit]
      simp [List.append_assoc]
  | case3 x r h ih =>
    rw [scanTags_cons_none x r h]
    intro q hq
    obtain ⟨l1, l2, hsplit⟩ := ih q hq
    exact ⟨x :: l1, l2, by rw [hsplit]; simp⟩

/-- Boolean membership of a character in a string. -/
def memB (c : Char) : List Char → Bool
  | [] => false
  | x :: r => x = c || memB c r

theorem memB_iff {c : Char} {l : List Char} : memB c l = true ↔ c ∈ l := by
  induction l with
  | nil => simp [memB]
  | cons x r ih =>
    rw [memB]
    simp only [Bool.or_eq_true, decide_eq_true_eq, ih, List.mem_cons]
    exact ⟨fun h => h.elim (fun e => Or.inl e.symm) Or.inr,
           fun h => h.elim (fun e => Or.inl e.symm) Or.inr⟩

theorem memB_false_iff {c : Char} {l : List Char} : memB c l = false ↔ c ∉ l := by
  rw [← memB_iff]
  cases memB c l <;> simp

/-- Whether the string contains an occurrence of `o` that is followed,
anywhere later, by an occurrence of `c` — equivalently, whether a full
delimited group `o … c` could still be formed. -/
def hasPairB (o c : Char) : List Char → Bool
  | [] => false
  | x :: r => (decide (x = o) && memB c r) || hasPairB o c r

theorem hasPairB_iff {o c : Char} {l : List Char} :
    hasPairB o c l = true ↔ [o, c].Sublist l := by
  induction l with
  | nil => simp [hasPairB]
  | cons x r ih =>
    rw [hasPairB]
    simp only [Bool.or_eq_true, Bool.and_eq_true, decide_eq_true_eq]
    constructor
    · rintro (⟨rfl, hm⟩ | hp)
      · exact (List.singleton_sublist.2 (memB_iff.1 hm)).cons₂ _
      · exact (ih.1 hp).cons _
    · intro hs
      cases hs with
      | cons _ hs2 => exact Or.inr (ih.2 hs2)
      | cons₂ _ hs2 => exact Or.inl ⟨rfl, memB_iff.2 (List.singleton_sublist.1 hs2)⟩

theorem hasPairB_false_of_not_memB {o c : Char} {l : List Char}
    (h : memB c l = false) : hasPairB o c l = false := by
  induction l with
  | nil => rfl
  | cons x r ih =>
    rw [memB] at h
    simp only [Bool.or_eq_false_iff] at h
    rw [hasPairB, ih h.2, h.2]
    simp

/-- After `stripDelims o c`, no `o` is ever followed by a `c`: every
delimited group has been removed. -/
theorem stripDelims_noPair (o c : Char) (s : List Char) :
    hasPairB o c (stripDelims o c s) = false := by
  induction s using stripDelims.induct o c with
  | case1 => simp [stripDelims, hasPairB]
  | case2 r he =>
    have hnc : memB c r = false := by
      rw [memB_false_iff]
      intro hc
      have := List.dropWhile_eq_nil_iff.1 (List.isEmpty_iff.1 he) c hc
      simp at this
    rw [stripDelims]
    simp only [if_pos rfl, he, if_true]
    rw [hasPairB, hnc, hasPairB_false_of_not_memB hnc]
    simp
  | case3 r hne ih =>
    rw [stripDelims]
    simp only [if_pos rfl, hne, if_false]
    exact ih
  | case4 x r hx ih =>
    rw [stripDelims]
    simp only [hx, Bool.false_eq_true, if_false]
    rw [hasPairB, ih]
    simp [hx]

/-- `stripDelims` only deletes characters. -/
theorem stripDelims_sublist (o c : Char) (s : List Char) :
    (stripDelims o c s).Sublist s := by
  induction s using stripDelims.induct o c with
  | case1 => simp [stripDelims]
  | case2 r he =>
    rw [stripDelims]
    simp only [if_pos rfl, he, if_true]
    exact List.Sublist.refl _
  | case3 r hne ih =>
    rw [stripDelims]
    simp only [if_pos rfl, hne, if_false]
    exact ih.trans (((List.tail_sublist _).trans (List.dropWhile_sublist _)).trans
      (List.sublist_cons_self ..))
  | case4 x r hx ih =>
    rw [stripDelims]
    simp only [hx, Bool.false_eq_true, if_false]
    exact ih.cons₂ x

/-- `stripNags` only deletes characters. -/
theorem stripNags_sublist (s : List Char) : (stripNags s).Sublist s := by
  induction s using stripNags.induct with
  | case1 => simp [stripNags]
  | case2 r he ih =>
    rw [stripNags]
    simp only [if_pos rfl, he, if_true]
    exact ih.cons₂ _
  | case3 r hne ih =>
    rw [stripNags]
    simp only [if_pos rfl, hne, if_false]
    exact ih.trans ((List.dropWhile_sublist _).trans (List.sublist_cons_self ..))
  | case4 x r hx ih =>
    rw [stripNags]
    simp only [hx, Bool.false_eq_true, if_false]
    exact ih.cons₂ x

/-- `jsTrim` only deletes characters. -/
theorem jsTrim_sublist (s : List Char) : (jsTrim s).Sublist s := by
  rw [jsTrim]
  have h1 : (s.dropWhile wsChar).Sublist s := List.dropWhile_sublist _
  have h2 : (((s.dropWhile wsChar).reverse.dropWhile wsChar).reverse).Sublist
      ((s.dropWhile wsChar).reverse.reverse) :=
    List.Sublist.reverse (List.dropWhile_sublist _)
  rw [List.reverse_reverse] at h2
  exact h2.trans h1

/-- `jsTrim` keeps a contiguous block of the input. -/
theorem jsTrim_split (s : List Char) : ∃ l1 l2, s = l1 ++ jsTrim s ++ l2 := by
  refine ⟨s.takeWhile wsChar, ((s.dropWhile wsChar).reverse.takeWhile wsChar).reverse, ?_⟩
  rw [jsTrim]
  have e1 : s.takeWhile wsChar ++ s.dropWhile wsChar = s :=
    List.takeWhile_append_dropWhile ..
  have e2 : (s.dropWhile wsChar).reverse.takeWhile wsChar ++
      (s.dropWhile wsChar).reverse.dropWhile wsChar = (s.dropWhile wsChar).reverse :=
    List.takeWhile_append_dropWhile ..
  have e3 : s.dropWhile wsChar =
      ((s.dropWhile wsChar).reverse.dropWhile wsChar).reverse ++
        ((s.dropWhile wsChar).reverse.takeWhile wsChar).reverse := by
    have := congrArg List.reverse e2
    rw [List.reverse_append] at this
    simpa using this.symm
  conv_lhs => rw [← e1, e3]
  simp [List.append_assoc]

/-- No `$` immediately followed by a digit occurs in the string (i.e. no
numeric annotation glyph survives). -/
def nagFreeB : List Char → Bool
  | '$' :: x :: r => !digChar x && nagFreeB (x :: r)
  | _ :: r => nagFreeB r
  | [] => true

/-- The head of the string, if any, is not a digit. -/
def headND : List Char → Bool
  | [] => true
  | x :: _ => !digChar x

theorem nagFreeB_nil : nagFreeB [] = true := rfl

theorem nagFreeB_single (x : Char) : nagFreeB [x] = true := by
  simp [nagFreeB]

theorem nagFreeB_cons_cons (a b : Char) (r : List Char) :
    nagFreeB (a :: b :: r) = (!(decide (a = '$') && digChar b) && nagFreeB (b :: r)) := by
  by_cases h : a = '$'
  · subst h
    simp [nagFreeB]
  · simp [nagFreeB, h]

theorem nagFreeB_tail {x : Char} {r : List Char} (h : nagFreeB (x :: r) = true) :
    nagFreeB r = true := by
  cases r with
  | nil => rfl
  | cons y t =>
    rw [nagFreeB_cons_cons] at h
    simp only [Bool.and_eq_true] at h
    exact h.2

theorem nagFreeB_suffix {l1 l2 : List Char} (h : l1 <:+ l2)
    (hn : nagFreeB l2 = true) : nagFreeB l1 = true := by
  obtain ⟨pre, rfl⟩ := h
  induction pre with
  | nil => exact hn
  | cons p pre ih => exact ih (nagFreeB_tail hn)

theorem nagFreeB_append_left {l1 l2 : List Char}
    (h : nagFreeB (l1 ++ l2) = true) : nagFreeB l1 = true := by
  induction l1 with
  | nil => rfl
  | cons x t ih =>
    cases t with
    | nil => exact nagFreeB_single x
    | cons y t2 =>
      rw [List.cons_append, List.cons_append, nagFreeB_cons_cons] at h
      simp only [Bool.and_eq_true] at h
      obtain ⟨h1, h2⟩ := h
      rw [← List.cons_append] at h2
      rw [nagFreeB_cons_cons]
      simp only [Bool.and_eq_true]
      exact ⟨h1, ih h2⟩

theorem headND_dropWhileDig (l : List Char) : headND (l.dropWhile digChar) = true := by
  induction l with
  | nil => rfl
  | cons x r ih =>
    by_cases h : digChar x = true
    · rw [List.dropWhile_cons_of_pos h]
      exact ih
    · rw [List.dropWhile_cons_of_neg h, headND]
      simp at h
      simp [h]

theorem stripNags_headND {l : List Char} (h : headND l = true) :
    headND (stripNags l) = true := by
  induction l using stripNags.induct with
  | case1 => simp [stripNags, headND]
  | case2 r he ih =>
    rw [stripNags]
    simp only [if_pos rfl, he, if_true]
    rw [headND]
    decide
  | case3 r hne ih =>
    rw [stripNags]
    simp only [if_pos rfl, hne, if_false]
    exact ih (headND_dropWhileDig r)
  | case4 x r hx ih =>
    rw [stripNags]
    simp only [hx, Bool.false_eq_true, if_false]
    exact h

/-- After `stripNags`, no `$` is immediately followed by a digit: every
numeric annotation glyph has been removed. -/
theorem stripNags_nagFree (l : List Char) : nagFreeB (stripNags l) = true := by
  induction l using stripNags.induct with
  | case1 => simp [stripNags, nagFreeB]
  | case2 r he ih =>
    rw [stripNags]
    simp only [if_pos rfl, he, if_true]
    have hnd : headND r = true := by
      cases r with
      | nil => rfl
      | cons z r2 =>
        by_cases hz : digChar z = true
        · rw [List.takeWhile_cons_of_pos hz] at he
          simp at he
        · rw [headND]
          simp at hz
          simp [hz]
    have hnd2 := stripNags_headND hnd
    cases hout : stripNags r with
    | nil => exact nagFreeB_single _
    | cons y t =>
      rw [nagFreeB_cons_cons]
      rw [hout] at hnd2 ih
      rw [headND] at hnd2
      have hdy : digChar y = false := by
        revert hnd2
        cases digChar y <;> simp
      rw [hdy, ih]
      simp
  | case3 r hne ih =>
    rw [stripNags]
    simp only [if_pos rfl, hne, if_false]
    exact ih
  | case4 x r hx ih =>
    rw [stripNags]
    simp only [hx, Bool.false_eq_true, if_false]
    cases hout : stripNags r with
    | nil => exact nagFreeB_single _
    | cons y t =>
      rw [nagFreeB_cons_cons]
      rw [hout] at ih
      rw [ih]
      simp [hx]

theorem collapseWs_mem {l : List Char} : ∀ y ∈ collapseWs l, y = ' ' ∨ y ∈ l := by
  induction l using collapseWs.induct with
  | case1 => simp [collapseWs]
  | case2 x r hx ih =>
    rw [collapseWs]
    simp only [if_pos hx]
    intro y hy
    rcases List.mem_cons.1 hy with rfl | hy2
    · exact Or.inl rfl
    · rcases ih y hy2 with h | h
      · exact Or.inl h
      · exact Or.inr (List.mem_cons_of_mem _ ((List.dropWhile_sublist _).subset h))
  | case3 x r hx ih =>
    rw [collapseWs]
    simp only [hx, Bool.false_eq_true, if_false]
    intro y hy
    rcases List.mem_cons.1 hy with rfl | hy2
    · exact Or.inr (List.mem_cons_self ..)
    · rcases ih y hy2 with h | h
      · exact Or.inl h
      · exact Or.inr (List.mem_cons_of_mem _ h)

/-- `collapseWs` cannot create a new delimiter pair, for delimiters other
than the space character it inserts. -/
theorem collapseWs_pair_sub {o c : Char} (ho : o ≠ ' ') (hc : c ≠ ' ')
    {l : List Char} (h : [o, c].Sublist (collapseWs l)) : [o, c].Sublist l := by
  induction l using collapseWs.induct with
  | case1 => rw [collapseWs] at h; exact h
  | case2 x r hx ih =>
    rw [collapseWs] at h
    simp only [if_pos hx] at h
    cases h with
    | cons _ h2 =>
      exact ((ih h2).trans (List.dropWhile_sublist _)).cons _
    | cons₂ _ h2 => exact absurd rfl ho
  | case3 x r hx ih =>
    rw [collapseWs] at h
    simp only [hx, Bool.false_eq_true, if_false] at h
    cases h with
    | cons _ h2 => exact (ih h2).cons _
    | cons₂ _ h2 =>
      have hcr : c ∈ collapseWs r := List.singleton_sublist.1 h2
      rcases collapseWs_mem c hcr with hsp | hmem
      · exact absurd hsp hc
      · exact (List.singleton_sublist.2 hmem).cons₂ _

theorem collapseWs_headND {l : List Char} (h : headND l = true) :
    headND (collapseWs l) = true := by
  induction l using collapseWs.induct with
  | case1 => simpa [collapseWs] using h
  | case2 x r hx ih =>
    rw [collapseWs]
    simp only [if_pos hx]
    rw [headND]
    decide
  | case3 x r hx ih =>
    rw [collapseWs]
    simp only [hx, Bool.false_eq_true, if_false]
    exact h

theorem collapseWs_nagFree {l : List Char} (h : nagFreeB l = true) :
    nagFreeB (collapseWs l) = true := by
  induction l using collapseWs.induct with
  | case1 => simpa [collapseWs] using h
  | case2 x r hx ih =>
    rw [collapseWs]
    simp only [if_pos hx]
    have hr : nagFreeB (r.dropWhile rntChar) = true :=
      nagFreeB_suffix (List.dropWhile_suffix _) (nagFreeB_tail h)
    have hrec := ih hr
    cases hout : collapseWs (r.dropWhile rntChar) with
    | nil => exact nagFreeB_single _
    | cons y t =>
      rw [nagFreeB_cons_cons]
      rw [hout] at hrec
      rw [hrec]
      simp
  | case3 x r hx ih =>
    rw [collapseWs]
    simp only [hx, Bool.false_eq_true, if_false]
    have hrec := ih (nagFreeB_tail h)
    cases hout : collapseWs r with
    | nil => exact nagFreeB_single _
    | cons y t =>
      rw [nagFreeB_cons_cons]
      rw [hout] at hrec
      rw [hrec]
      by_cases hdol : x = '$'
      · subst hdol
        have hndr : headND r = true := by
          cases r with
          | nil => rfl
          | cons z r2 =>
            rw [nagFreeB_cons_cons] at h
            simp only [Bool.and_eq_true] at h
            rw [headND]
            have := h.1
            simp at this
            simp [this]
        have := collapseWs_headND hndr
        rw [hout, headND] at this
        have hdy : digChar y = false := by
          revert this
          cases digChar y <;> simp
        simp [hdy]
      · simp [hdol]

/-- No raw carriage return, newline or tab survives `collapseWs`. -/
theorem collapseWs_no_rnt (l : List Char) :
    (collapseWs l).all (fun ch => !rntChar ch) = true := by
  induction l using collapseWs.induct with
  | case1 => simp [collapseWs]
  | case2 x r hx ih =>
    rw [collapseWs]
    simp only [if_pos hx]
    rw [List.all_cons, ih]
    decide
  | case3 x r hx ih =>
    rw [collapseWs]
    simp only [hx, Bool.false_eq_true, if_false]
    rw [List.all_cons, ih]
    simp [hx]

theorem nagFreeB_jsTrim {l : List Char} (h : nagFreeB l = true) :
    nagFreeB (jsTrim l) = true := by
  obtain ⟨l1, l2, hsplit⟩ := jsTrim_split l
  have hsuf : (jsTrim l ++ l2) <:+ l := ⟨l1, by rw [← List.append_assoc]; exact hsplit.symm⟩
  exact nagFreeB_append_left (nagFreeB_suffix hsuf h)

theorem all_of_sublist {l1 l2 : List Char} {p : Char → Bool} (h : l1.Sublist l2)
    (ha : l2.all p = true) : l1.all p = true := by
  rw [List.all_eq_true] at *
  exact fun x hx => ha x (h.subset hx)

theorem hasPairB_mono {o c : Char} {l1 l2 : List Char} (hs : l1.Sublist l2)
    (h : hasPairB o c l1 = true) : hasPairB o c l2 = true :=
  hasPairB_iff.2 ((hasPairB_iff.1 h).trans hs)

theorem containsSeq_of_isPrefixOf {t s : List Char} (h : t.isPrefixOf s = true) :
    containsSeq t s = true := by
  cases s with
  | nil =>
    cases t with
    | nil => rfl
    | cons x xs => simp [List.isPrefixOf] at h
  | cons y r =>
    rw [containsSeq, h]
    simp

theorem containsSeq_of_split {t s : List Char} (h : ∃ l1 l2, s = l1 ++ t ++ l2) :
    containsSeq t s = true := by
  obtain ⟨l1, l2, rfl⟩ := h
  induction l1 with
  | nil =>
    exact containsSeq_of_isPrefixOf
      (List.isPrefixOf_iff_prefix.2 (by simpa using List.prefix_append t l2))
  | cons x l1 ih =>
    rw [List.cons_append, List.cons_append, containsSeq, ih]
    simp

/--
C4: for every input string, the PGN sanitizer in `handleLoadPgn` extracts
tag pairs that match `[Tag "value"]` and occur verbatim in the input; the
cleaned movetext contains no complete brace-delimited comment, no complete
parenthesized variation, no numeric annotation glyph `$n`, and no raw
carriage-return/newline/tab character (each such run was replaced by a
single space); and the reconstructed PGN is the extracted tags joined by
newlines, a blank line, then the cleaned movetext.
-/
theorem c4_pgn_sanitizer_spec (pgn : List Char) :
    (partsOf pgn).all wfParts = true ∧
    tagsOf pgn = (partsOf pgn).map tagOfParts ∧
    (tagsOf pgn).all (fun t => containsSeq t pgn) = true ∧
    hasPairB obr cbr (cleanedMovetextOf pgn) = false ∧
    hasPairB '(' ')' (cleanedMovetextOf pgn) = false ∧
    nagFreeB (cleanedMovetextOf pgn) = true ∧
    (cleanedMovetextOf pgn).all (fun ch => !rntChar ch) = true ∧
    cleanedPgnOf pgn =
      List.intercalate (chars "\n") (tagsOf pgn) ++ chars "\n\n" ++ cleanedMovetextOf pgn := by
  refine ⟨?_, rfl, ?_, ?_, ?_, ?_, ?_, rfl⟩
  · exact List.all_eq_true.2 (scanTags_wf _)
  · rw [List.all_eq_true]
    intro t ht
    rw [tagsOf] at ht
    obtain ⟨p, hp, rfl⟩ := List.mem_map.1 ht
    obtain ⟨l1, l2, hsp⟩ := scanTags_split (pgnStringOf pgn) p hp
    obtain ⟨a, b, htr⟩ := jsTrim_split pgn
    refine containsSeq_of_split ⟨a ++ l1, l2 ++ b, ?_⟩
    rw [htr]
    rw [pgnStringOf] at hsp
    rw [hsp]
    simp [List.append_assoc]
  · rw [Bool.eq_false_iff]
    intro htrue
    have h1 : [obr, cbr].Sublist
        (collapseWs (stripNags (stripDelims '(' ')' (stripDelims obr cbr (movetextOf pgn))))) :=
      (hasPairB_iff.1 htrue).trans (jsTrim_sublist _)
    have h2 := collapseWs_pair_sub (by decide) (by decide) h1
    have h3 : [obr, cbr].Sublist (stripDelims obr cbr (movetextOf pgn)) :=
      (h2.trans (stripNags_sublist _)).trans (stripDelims_sublist _ _ _)
    have h4 := hasPairB_iff.2 h3
    rw [stripDelims_noPair] at h4
    exact absurd h4 (by simp)
  · rw [Bool.eq_false_iff]
    intro htrue
    have h1 : ['(', ')'].Sublist
        (collapseWs (stripNags (stripDelims '(' ')' (stripDelims obr cbr (movetextOf pgn))))) :=
      (hasPairB_iff.1 htrue).trans (jsTrim_sublist _)
    have h2 := collapseWs_pair_sub (by decide) (by decide) h1
    have h3 : ['(', ')'].Sublist (stripDelims '(' ')' (stripDelims obr cbr (movetextOf pgn))) :=
      h2.trans (stripNags_sublist _)
    have h4 := hasPairB_iff.2 h3
    rw [stripDelims_noPair] at h4
    exact absurd h4 (by simp)
  · exact nagFreeB_jsTrim (collapseWs_nagFree (stripNags_nagFree _))
  · exact all_of_sublist (jsTrim_sublist _) (collapseWs_no_rnt _)

/-!
## The engine-worker adapter (`GameAnalysis` in `src/App.js`)

The chess.js library is an external collaborator; it is modelled by the
oracle structure `ChessLib` below.  Engine messages and commands are
strings.
-/

/-- A game successfully parsed by `chess.loadPgn` (used by
`getOpeningFromEco`): its headers and the SAN move list of its history. -/
structure ParsedGame where
  headers : List (List Char × List Char)
  sans : List (List Char)

/-- Oracle model of the chess.js library (an external dependency): PGN
parsing, move application, FEN production, and of
`decodeURIComponent` (which may throw). -/
structure ChessLib where
  parse : List Char → Option ParsedGame
  loadPgnE : List Char → Except (List Char) (List (List Char))
  step : List Char → List Char → List Char
  initFen : List Char
  tryMove : List Char → List Char → Option (List Char)
  decodeURI : List Char → Option (List Char)

/-- The digit character for `d` (meaningful for `d < 10`). -/
def digitChar (d : Nat) : Char := Char.ofNat (48 + d)

/-- Decimal digits of `n`, most significant first. -/
def natToChars (n : Nat) : List Char :=
  if n < 10 then [digitChar n] else natToChars (n / 10) ++ [digitChar (n % 10)]
termination_by n
decreasing_by
  exact Nat.div_lt_self (by omega) (by omega)

/-- `(k / 100).toFixed(2)` of JavaScript, for an integer centipawn value
`k`: the exact two-decimal rendering of `k` hundredths. -/
def renderCp (k : Int) : List Char :=
  (if k < 0 then ['-'] else []) ++ natToChars (k.natAbs / 100) ++
    '.' :: [digitChar (k.natAbs % 100 / 10), digitChar (k.natAbs % 100 % 10)]

/-- `parseInt(digits, 10)` for a non-empty digit string. -/
def natOfDigits (ds : List Char) : Nat :=
  ds.foldl (fun acc c => acc * 10 + (c.toNat - 48)) 0

/-- Try to match the regex `score cp (-?\d+)` at the head of the string;
return the captured integer. -/
def scoreCpAt (s : List Char) : Option Int :=
  if (chars "score cp ").isPrefixOf s then
    match s.drop 9 with
    | '-' :: t2 =>
      let ds := t2.takeWhile digChar
      if ds.isEmpty then none else some (-(natOfDigits ds : Int))
    | t =>
      let ds := t.takeWhile digChar
      if ds.isEmpty then none else some ((natOfDigits ds : Int))
  else none

/-- `message.match(/score cp (-?\d+)/)`: the capture of the first position
at which the whole pattern matches. -/
def firstScoreCp : List Char → Option Int
  | [] => none
  | x :: r =>
    match scoreCpAt (x :: r) with
    | some k => some k
    | none => firstScoreCp r

/-- First split of JS `s.split(sep)` for a string separator: the text
before the first occurrence of `sep`, and the text after it. -/
def breakSeq (sep : List Char) : List Char → Option (List Char × List Char)
  | [] => if sep.isEmpty then some ([], []) else none
  | x :: r =>
    if sep.isPrefixOf (x :: r) then some ([], (x :: r).drop sep.length)
    else (breakSeq sep r).map (fun pr => (x :: pr.1, pr.2))

/-- `message.split(' pv ')[1]`: the text between the first and second
occurrence of `' pv '` (to the end when there is no second occurrence). -/
def pvSegment (m : List Char) : Option (List Char) :=
  (breakSeq (chars " pv ") m).map (fun pr =>
    match breakSeq (chars " pv ") pr.2 with
    | some pr2 => pr2.1
    | none => pr.2)

/-- `message.split(' pv ')[1].split(' ')`. -/
def pvMoves (m : List Char) : List (List Char) :=
  match pvSegment m with
  | some seg => seg.splitOn ' '
  | none => []

/-- The `topEngineMoves` loop: try the first `min 3` pv tokens, each from
the same position (`tempGame.move` followed by `tempGame.undo`), keeping
the SAN of the legal ones. -/
def computePv (lib : ChessLib) (fen : List Char) (m : List Char) : List (List Char) :=
  ((pvMoves m).take 3).filterMap (fun mv => lib.tryMove fen mv)

/-- The `GameAnalysis` engine-related state touched by the worker message
handler. -/
structure EngineSt where
  status : List Char
  evaluation : List Char
  topMoves : List (List Char)

/--
The worker `onMessage` handler of `GameAnalysis` (`src/App.js`): on
`'readyok'` the status becomes `'Ready'`; on a message starting with
`'uciok'` the command `'isready'` is posted; otherwise the handler parses
an evaluation score (`score cp k`) and, for `info depth … pv …` messages,
the top engine moves.  Returns the updated state and the list of commands
posted to the worker.
-/
def onMessage (lib : ChessLib) (fenCtx : List Char) (st : EngineSt) (m : List Char) :
    EngineSt × List (List Char) :=
  if m = chars "readyok" then ({ st with status := chars "Ready" }, [])
  else if (chars "uciok").isPrefixOf m then (st, [chars "isready"])
  else
    let st1 :=
      if containsSeq (chars "score cp") m then
        match firstScoreCp m with
        | some k => { st with evaluation := renderCp k }
        | none => st
      else st
    let st2 :=
      if containsSeq (chars "info depth") m && containsSeq (chars " pv ") m then
        { st1 with topMoves := computePv lib fenCtx m }
      else st1
    (st2, [])

/-- `getEvaluation` of `GameAnalysis`: bail out unless the engine status is
`'Ready'` and the worker handle exists; otherwise clear the displayed
analysis and post `position fen <fen>` then `go depth 15`. -/
def getEvaluation (workerPresent : Bool) (st : EngineSt) (fen : List Char) :
    EngineSt × List (List Char) :=
  if st.status ≠ chars "Ready" || !workerPresent then (st, [])
  else ({ st with evaluation := chars "...", topMoves := [] },
        [chars "position fen " ++ fen, chars "go depth 15"])

/-- The initialisation message posted by the engine `useEffect`:
`worker.postMessage('uci')`. -/
def engineInitSends : List (List Char) := [chars "uci"]

theorem digChar_digitChar {d : Nat} (h : d < 10) : digChar (digitChar d) = true := by
  interval_cases d <;> decide

theorem toNat_digitChar {d : Nat} (h : d < 10) : (digitChar d).toNat - 48 = d := by
  interval_cases d <;> decide

theorem natToChars_ne_nil (n : Nat) : natToChars n ≠ [] := by
  rw [natToChars]
  split
  · simp
  · simp

theorem natToChars_digits (n : Nat) : ∀ c ∈ natToChars n, digChar c = true := by
  induction n using Nat.strong_induction_on with
  | _ n ih =>
    rw [natToChars]
    split
    · rename_i h
      intro c hc
      rw [List.mem_singleton] at hc
      subst hc
      exact digChar_digitChar h
    · rename_i h
      intro c hc
      rcases List.mem_append.1 hc with hc2 | hc2
      · exact ih (n / 10) (Nat.div_lt_self (by omega) (by omega)) c hc2
      · rw [List.mem_singleton] at hc2
        subst hc2
        exact digChar_digitChar (Nat.mod_lt _ (by omega))

theorem natOfDigits_snoc (xs : List Char) (c : Char) :
    natOfDigits (xs ++ [c]) = natOfDigits xs * 10 + (c.toNat - 48) := by
  rw [natOfDigits, natOfDigits, List.foldl_append]
  rfl

theorem natOfDigits_natToChars (n : Nat) : natOfDigits (natToChars n) = n := by
  induction n using Nat.strong_induction_on with
  | _ n ih =>
    rw [natToChars]
    split
    · rename_i h
      show natOfDigits [digitChar n] = n
      rw [natOfDigits]
      simp [List.foldl]
      rw [show (digitChar n).toNat - 48 = n from toNat_digitChar h]
    · rename_i h
      rw [natOfDigits_snoc, ih (n / 10) (Nat.div_lt_self (by omega) (by omega)),
        toNat_digitChar (Nat.mod_lt _ (by omega))]
      omega

theorem takeWhile_append_all {p : Char → Bool} {xs ys : List Char}
    (h : ∀ x ∈ xs, p x = true) :
    (xs ++ ys).takeWhile p = xs ++ ys.takeWhile p := by
  induction xs with
  | nil => simp
  | cons x t ih =>
    rw [List.cons_append, List.takeWhile_cons_of_pos (h x (List.mem_cons_self ..)),
      ih (fun y hy => h y (List.mem_cons_of_mem _ hy))]
    simp

/-- The two-decimal numeral parser (non-negative part): digits, a point,
and exactly two digits, valued in hundredths. -/
def twoDecValueN (l : List Char) : Option Nat :=
  if (l.takeWhile digChar).isEmpty then none
  else
    match l.drop (l.takeWhile digChar).length with
    | '.' :: d1 :: d2 :: [] =>
      if digChar d1 && digChar d2 then
        some (natOfDigits (l.takeWhile digChar) * 100 + (d1.toNat - 48) * 10 + (d2.toNat - 48))
      else none
    | _ => none

/-- The two-decimal numeral parser: an optional minus sign, digits, a
point, and exactly two digits; the value is in hundredths (centipawns). -/
def twoDecValue (l : List Char) : Option Int :=
  match l with
  | [] => none
  | x :: rest =>
    if x = '-' then (twoDecValueN rest).map (fun n => -(n : Int))
    else (twoDecValueN (x :: rest)).map (fun n => (n : Int))

theorem twoDecValueN_spec (q f1 f2 : Nat) (hf1 : f1 < 10) (hf2 : f2 < 10) :
    twoDecValueN (natToChars q ++ '.' :: [digitChar f1, digitChar f2]) =
      some (q * 100 + f1 * 10 + f2) := by
  have hds : (natToChars q ++ '.' :: [digitChar f1, digitChar f2]).takeWhile digChar =
      natToChars q := by
    rw [takeWhile_append_all (natToChars_digits q), List.takeWhile_cons_of_neg (by decide)]
    simp
  rw [twoDecValueN, hds]
  rw [if_neg (by simpa [List.isEmpty_iff] using natToChars_ne_nil q)]
  rw [List.drop_left]
  show (if digChar (digitChar f1) && digChar (digitChar f2) then _ else none) = _
  rw [digChar_digitChar hf1, digChar_digitChar hf2]
  simp only [Bool.and_self, if_true, Option.some.injEq]
  rw [natOfDigits_natToChars, toNat_digitChar hf1, toNat_digitChar hf2]

/-- `renderCp` really is the two-decimal decimal string whose value is `k`
hundredths: parsing it back yields `k`. -/
theorem twoDecValue_renderCp (k : Int) : twoDecValue (renderCp k) = some k := by
  by_cases hk : k < 0
  · rw [renderCp, if_pos hk]
    show twoDecValue ('-' :: (natToChars (k.natAbs / 100) ++
      '.' :: [digitChar (k.natAbs % 100 / 10), digitChar (k.natAbs % 100 % 10)])) = some k
    rw [twoDecValue, if_pos rfl]
    rw [twoDecValueN_spec _ _ _ (by omega) (by omega)]
    have hval : (k.natAbs / 100) * 100 + k.natAbs % 100 / 10 * 10 + k.natAbs % 100 % 10 =
        k.natAbs := by omega
    rw [hval]
    show some (-(k.natAbs : Int)) = some k
    congr 1
    omega
  · rw [renderCp, if_neg hk]
    simp only [List.nil_append]
    cases hX : natToChars (k.natAbs / 100) with
    | nil => exact absurd hX (natToChars_ne_nil _)
    | cons c cs =>
      have hc : digChar c = true := by
        have := natToChars_digits (k.natAbs / 100) c
        rw [hX] at this
        exact this (List.mem_cons_self ..)
      have hcne : ¬ c = '-' := by
        intro hcontra
        rw [hcontra] at hc
        exact absurd hc (by decide)
      rw [List.cons_append]
      rw [twoDecValue, if_neg hcne]
      rw [← List.cons_append, ← hX]
      rw [twoDecValueN_spec _ _ _ (by omega) (by omega)]
      have hval : (k.natAbs / 100) * 100 + k.natAbs % 100 / 10 * 10 + k.natAbs % 100 % 10 =
          k.natAbs := by omega
      rw [hval]
      show some ((k.natAbs : Int)) = some k
      congr 1
      omega

/--
C2: the engine-worker adapter follows the UCI handshake and evaluation
command sequence.  On startup exactly `'uci'` is sent; a message starting
with `'uciok'` triggers exactly `'isready'`; exactly the message
`'readyok'` (and no other) sets the status to `'Ready'`; and an evaluation
request posts `'position fen <fen>'` immediately followed by
`'go depth 15'`, and only when the status is `'Ready'` (with the worker
present) — otherwise nothing is sent.
-/
theorem c2_engine_protocol (lib : ChessLib) (fenCtx : List Char) (st st2 : EngineSt)
    (fen m : List Char) (workerPresent : Bool) :
    engineInitSends = [chars "uci"] ∧
    (onMessage lib fenCtx st m).2 =
      (if m = chars "readyok" then []
       else if (chars "uciok").isPrefixOf m then [chars "isready"] else []) ∧
    (onMessage lib fenCtx st m).1.status =
      (if m = chars "readyok" then chars "Ready" else st.status) ∧
    (getEvaluation workerPresent st2 fen).2 =
      (if st2.status = chars "Ready" ∧ workerPresent = true
       then [chars "position fen " ++ fen, chars "go depth 15"] else []) := by
  refine ⟨rfl, ?_, ?_, ?_⟩
  · rw [onMessage]
    by_cases h1 : m = chars "readyok"
    · simp [h1]
    · by_cases h2 : (chars "uciok").isPrefixOf m = true
      · simp [h1, h2]
      · simp only [if_neg h1, h2, Bool.false_eq_true, if_false]
  · rw [onMessage]
    by_cases h1 : m = chars "readyok"
    · simp [h1]
    · by_cases h2 : (chars "uciok").isPrefixOf m = true
      · simp [h1, h2]
      · simp only [if_neg h1, h2, Bool.false_eq_true, if_false]
        split <;> split <;> (try rfl) <;> (cases firstScoreCp m <;> rfl)
  · rw [getEvaluation]
    by_cases he : st2.status = chars "Ready"
    · cases workerPresent <;> simp [he]
    · cases workerPresent <;> simp [he]

theorem isPrefixOf_weaken {p q s : List Char} (hpq : p.isPrefixOf q = true)
    (hqs : q.isPrefixOf s = true) : p.isPrefixOf s = true :=
  List.isPrefixOf_iff_prefix.2
    ((List.isPrefixOf_iff_prefix.1 hpq).trans (List.isPrefixOf_iff_prefix.1 hqs))

theorem firstScoreCp_contains {m : List Char} {k : Int}
    (h : firstScoreCp m = some k) : containsSeq (chars "score cp") m = true := by
  induction m with
  | nil => simp [firstScoreCp] at h
  | cons x r ih =>
    rw [firstScoreCp] at h
    rw [containsSeq]
    split at h
    · rename_i k2 hat
      rw [scoreCpAt] at hat
      split at hat
      · rename_i hpre
        rw [isPrefixOf_weaken (p := chars "score cp") (by decide) hpre]
        simp
      · simp at hat
    · rename_i hat
      rw [ih h]
      simp

/-- A trivial instantiation of the chess.js oracle, used to evaluate the
adapter at concrete inputs. -/
def libDummy : ChessLib where
  parse := fun _ => none
  loadPgnE := fun _ => Except.error (chars "Invalid PGN")
  step := fun _ _ => []
  initFen := []
  tryMove := fun _ _ => none
  decodeURI := fun _ => none

/-- A concrete engine state with status `'Ready'` and empty displayed
evaluation. -/
def engineStReady : EngineSt where
  status := chars "Ready"
  evaluation := []
  topMoves := []

/--
C3 (as stated, counterexample): the message `'uciok score cp 5'` contains
`'score cp 5'` with `k = 5`, yet the handler does not set the displayed
evaluation to `'0.05'` (it leaves it unchanged and answers the `uciok`
handshake instead), because messages starting with `'uciok'` are consumed
by the handshake branch before score parsing.
-/
theorem c3_counterexample :
    containsSeq (chars "score cp 5") (chars "uciok score cp 5") = true ∧
    (onMessage libDummy [] engineStReady (chars "uciok score cp 5")).1.evaluation = [] ∧
    ([] : List Char) ≠ chars "0.05" := by
  refine ⟨by decide, by decide, by decide⟩

/--
C3 (amended): for every engine message that is not exactly `'readyok'` and
does not start with `'uciok'`, if the first match of the pattern
`score cp (-?\d+)` in the message captures the integer `k`, the handler
sets the displayed evaluation to the decimal string representing `k / 100`
with exactly two digits after the decimal point (`renderCp k`); parsing
that string back as a two-decimal numeral indeed yields `k` hundredths.
-/
theorem c3_score_display (lib : ChessLib) (fenCtx : List Char) (st : EngineSt)
    (m : List Char) (k : Int) (h1 : m ≠ chars "readyok")
    (h2 : ¬ (chars "uciok").isPrefixOf m = true)
    (h3 : firstScoreCp m = some k) :
    (onMessage lib fenCtx st m).1.evaluation = renderCp k ∧
    twoDecValue (renderCp k) = some k := by
  refine ⟨?_, twoDecValue_renderCp k⟩
  rw [onMessage]
  simp only [if_neg h1, h2, Bool.false_eq_true, if_false]
  rw [firstScoreCp_contains h3]
  simp only [if_true]
  rw [h3]
  split <;> rfl

/-- Witness for `c3_score_display` at a concrete engine info line. -/
theorem c3_score_display_witness :
    (chars "info depth 12 seldepth 2 score cp -237 pv e2e4" ≠ chars "readyok" ∧
     ¬ (chars "uciok").isPrefixOf (chars "info depth 12 seldepth 2 score cp -237 pv e2e4") = true ∧
     firstScoreCp (chars "info depth 12 seldepth 2 score cp -237 pv e2e4") = some (-237)) ∧
    (onMessage libDummy [] engineStReady
        (chars "info depth 12 seldepth 2 score cp -237 pv e2e4")).1.evaluation =
      renderCp (-237) ∧
    twoDecValue (renderCp (-237)) = some (-237) :=
  ⟨⟨by decide, by decide, by decide⟩,
   c3_score_display libDummy [] engineStReady _ (-237) (by decide) (by decide) (by decide)⟩

/-!
## `handleLoadPgn` (Game Analysis PGN loader)
-/

/-- The `GameAnalysis` component state touched by `handleLoadPgn`. -/
structure GameAnalysisSt where
  pgnError : List Char
  gameFen : List Char
  history : List (List Char)
  currentMove : Int
  engineStatus : List Char
  evaluation : List Char
  topMoves : List (List Char)

/--
`handleLoadPgn` of `GameAnalysis` (`src/App.js`): clear the error, clean
the pasted PGN (`cleanedPgnOf`), load it with chess.js; on any failure —
the library throwing, or a loaded game with an empty move list (which the
code turns into a thrown error) — display the error message (never empty,
thanks to the `e.message || default` fallback) and reset the board state;
on success show the starting position, store the history, reset the move
index and request an evaluation of the starting position.
-/
def handleLoadPgn (lib : ChessLib) (workerPresent : Bool) (pgnInput : List Char)
    (st : GameAnalysisSt) : GameAnalysisSt × List (List Char) :=
  let st0 := { st with pgnError := ([] : List Char) }
  match lib.loadPgnE (cleanedPgnOf pgnInput) with
  | Except.error msg =>
    ({ st0 with
        pgnError :=
          if msg.isEmpty then chars "An unexpected error occurred while loading the PGN."
          else msg,
        gameFen := lib.initFen,
        history := [],
        currentMove := -1,
        evaluation := [],
        topMoves := [] }, [])
  | Except.ok hist =>
    if hist.isEmpty then
      ({ st0 with
          pgnError := chars "The PGN was loaded, but it contains no moves.",
          gameFen := lib.initFen,
          history := [],
          currentMove := -1,
          evaluation := [],
          topMoves := [] }, [])
    else
      let es := getEvaluation workerPresent
        ⟨st.engineStatus, st.evaluation, st.topMoves⟩ lib.initFen
      ({ st0 with
          gameFen := lib.initFen,
          history := hist,
          currentMove := -1,
          evaluation := es.1.evaluation,
          topMoves := es.1.topMoves }, es.2)

/--
C1: whenever the cleaned form of the pasted PGN fails to load in the chess
library, or loads with an empty move list, `handleLoadPgn` sets a
non-empty inline error message and resets the board state: initial
position, empty history, current-move index `-1`, and cleared evaluation
and top-moves lists.
-/
theorem c1_load_pgn_error_reset (lib : ChessLib) (workerPresent : Bool)
    (pgnInput : List Char) (st : GameAnalysisSt)
    (hfail : (∃ msg, lib.loadPgnE (cleanedPgnOf pgnInput) = Except.error msg) ∨
             lib.loadPgnE (cleanedPgnOf pgnInput) = Except.ok []) :
    (handleLoadPgn lib workerPresent pgnInput st).1.pgnError ≠ [] ∧
    (handleLoadPgn lib workerPresent pgnInput st).1.gameFen = lib.initFen ∧
    (handleLoadPgn lib workerPresent pgnInput st).1.history = [] ∧
    (handleLoadPgn lib workerPresent pgnInput st).1.currentMove = -1 ∧
    (handleLoadPgn lib workerPresent pgnInput st).1.evaluation = [] ∧
    (handleLoadPgn lib workerPresent pgnInput st).1.topMoves = [] := by
  rcases hfail with ⟨msg, herr⟩ | hok
  · have hred : (handleLoadPgn lib workerPresent pgnInput st).1 =
        { pgnError :=
            if msg.isEmpty then chars "An unexpected error occurred while loading the PGN."
            else msg,
          gameFen := lib.initFen, history := [], currentMove := -1,
          engineStatus := st.engineStatus, evaluation := [], topMoves := [] } := by
      rw [handleLoadPgn]
      simp only [herr]
    rw [hred]
    refine ⟨?_, rfl, rfl, rfl, rfl, rfl⟩
    show (if msg.isEmpty then chars "An unexpected error occurred while loading the PGN."
      else msg) ≠ []
    by_cases hm : msg.isEmpty = true
    · simp only [hm, if_true]
      decide
    · simp only [hm, Bool.false_eq_true, if_false]
      rw [List.isEmpty_iff] at hm
      exact hm
  · have hred : (handleLoadPgn lib workerPresent pgnInput st).1 =
        { pgnError := chars "The PGN was loaded, but it contains no moves.",
          gameFen := lib.initFen, history := [], currentMove := -1,
          engineStatus := st.engineStatus, evaluation := [], topMoves := [] } := by
      rw [handleLoadPgn]
      simp only [hok]
      rfl
    rw [hred]
    refine ⟨?_, rfl, rfl, rfl, rfl, rfl⟩
    show chars "The PGN was loaded, but it contains no moves." ≠ []
    decide

/-- A concrete non-reset `GameAnalysis` state. -/
def gaSt0 : GameAnalysisSt where
  pgnError := chars "old error"
  gameFen := chars "some-fen"
  history := [chars "e4"]
  currentMove := 3
  engineStatus := chars "Ready"
  evaluation := chars "1.00"
  topMoves := [chars "Nf3"]

/-- Witness for `c1_load_pgn_error_reset`: a library that rejects the
cleaned PGN, applied to a concrete pasted string and state. -/
theorem c1_load_pgn_error_reset_witness :
    (∃ msg, libDummy.loadPgnE (cleanedPgnOf (chars "junk input")) = Except.error msg) ∧
    ((handleLoadPgn libDummy true (chars "junk input") gaSt0).1.pgnError ≠ [] ∧
     (handleLoadPgn libDummy true (chars "junk input") gaSt0).1.gameFen = libDummy.initFen ∧
     (handleLoadPgn libDummy true (chars "junk input") gaSt0).1.history = [] ∧
     (handleLoadPgn libDummy true (chars "junk input") gaSt0).1.currentMove = -1 ∧
     (handleLoadPgn libDummy true (chars "junk input") gaSt0).1.evaluation = [] ∧
     (handleLoadPgn libDummy true (chars "junk input") gaSt0).1.topMoves = []) :=
  ⟨⟨chars "Invalid PGN", rfl⟩,
   c1_load_pgn_error_reset libDummy true (chars "junk input") gaSt0
     (Or.inl ⟨chars "Invalid PGN", rfl⟩)⟩

/-!
## Data fetching (`fetchData`, `App`'s `loadAllData`)
-/

/-- What one HTTP fetch can yield as observed by the code: a rejected
promise, or a response with a status flag and (for `.json()`) an optional
parsed body (`none` models a JSON parse failure). -/
inductive FetchOutcome (α : Type) where
  | reject
  | response (ok : Bool) (body : Option α)

/-- A parsed JSON value as the dashboard distinguishes it: an array of
records, or anything else. -/
inductive FetchVal (α : Type) where
  | arr (xs : List α)
  | nonArray

/-- `Array.isArray` on a fetched value. -/
def FetchVal.isArr {α : Type} : FetchVal α → Bool
  | .arr _ => true
  | .nonArray => false

/-- `const API_BASE_URL = 'http://localhost:5000/api';`. -/
def API_BASE_URL : List Char := chars "http://localhost:5000/api"

/-- One fetch call: appends the requested URL to the request log and asks
the network environment for the outcome. -/
def httpGet {α : Type} (net : List Char → FetchOutcome α) (url : List Char)
    (log : List (List Char)) : List (List Char) × FetchOutcome α :=
  (log ++ [url], net url)

/--
`fetchData(endpoint)` (`src/App.js`): one `fetch` of
`API_BASE_URL + endpoint`; on a rejected fetch, a non-ok status, or an
unparseable body the catch returns the empty array; otherwise the parsed
JSON is returned.  The first component is the request log: exactly one
request is issued per invocation, whatever the outcome.
-/
def fetchData {α : Type} (net : List Char → FetchOutcome (FetchVal α))
    (endpoint : List Char) (log : List (List Char)) :
    List (List Char) × FetchVal α :=
  let r := httpGet net (API_BASE_URL ++ endpoint) log
  (r.1,
   match r.2 with
   | .reject => FetchVal.arr []
   | .response ok body =>
     if ok then
       match body with
       | some v => v
       | none => FetchVal.arr []
     else FetchVal.arr [])

/-- `const FRIENDS = [...]` (display name, chess.com username). -/
def FRIENDS : List (List Char × List Char) :=
  [(chars "Ulysse", chars "realulysse"),
   (chars "Simon", chars "poulet_tao"),
   (chars "Adrien", chars "adrienbourque"),
   (chars "Alex", chars "naatiry"),
   (chars "Kevin", chars "kevor24")]

/-- The fixed manual initial ratings per category. -/
structure InitialRatings where
  Rapid : Int
  Blitz : Int
  Bullet : Int
deriving DecidableEq

/-- `const MANUAL_INITIAL_RATINGS = {...}`, as a lookup by username. -/
def MANUAL_INITIAL_RATINGS (username : List Char) : Option InitialRatings :=
  if username = chars "realulysse" then some ⟨1971, 1491, 1349⟩
  else if username = chars "poulet_tao" then some ⟨1006, 413, 716⟩
  else if username = chars "adrienbourque" then some ⟨1619, 1163, 747⟩
  else if username = chars "naatiry" then some ⟨874, 315, 487⟩
  else if username = chars "kevor24" then some ⟨702, 846, 577⟩
  else none

/-- `FRIENDS.reduce((acc, curr) => { acc[curr.name] = curr.username; ... })`:
the display-name → username map (later assignments overwrite earlier
ones, exactly as in the JS object build). -/
def friendUsernameMap : List Char → Option (List Char) :=
  FRIENDS.foldl (fun acc pr => fun n => if n = pr.1 then some pr.2 else acc n) (fun _ => none)

/-- A record of the `/ratings/current` endpoint: the fields the code
reads, plus the untouched remainder (spread through `{...player}`). -/
structure PlayerRec where
  friend_name : List Char
  rapid_rating : Int
  blitz_rating : Int
  bullet_rating : Int
  extra : List (List Char × List Char)
deriving DecidableEq

/-- A displayed ratings row: every field of the fetched record plus the
three computed changes. -/
structure DisplayRec where
  friend_name : List Char
  rapid_rating : Int
  blitz_rating : Int
  bullet_rating : Int
  extra : List (List Char × List Char)
  rapid_change : Int
  blitz_change : Int
  bullet_change : Int
deriving DecidableEq

/-- `const ratingsWithChanges = ratingsData.map(player => {...})` from
`App`'s `loadAllData`. -/
def ratingsWithChanges (rows : List PlayerRec) : List DisplayRec :=
  rows.map (fun player =>
    let initialRatings := (friendUsernameMap player.friend_name).bind MANUAL_INITIAL_RATINGS
    { friend_name := player.friend_name,
      rapid_rating := player.rapid_rating,
      blitz_rating := player.blitz_rating,
      bullet_rating := player.bullet_rating,
      extra := player.extra,
      rapid_change :=
        match initialRatings with
        | some i => player.rapid_rating - i.Rapid
        | none => 0,
      blitz_change :=
        match initialRatings with
        | some i => player.blitz_rating - i.Blitz
        | none => 0,
      bullet_change :=
        match initialRatings with
        | some i => player.bullet_rating - i.Bullet
        | none => 0 })

/-- The `App` state set by `loadAllData`. -/
structure AppSt where
  currentRatings : List DisplayRec
  ratingHistory : List (List Char)
  error : Option (List Char)
  loading : Bool

/-- The processing step of `App`'s `loadAllData` on the two fetched
values: non-array data throws, caught as the error banner; otherwise the
ratings get their changes computed and both lists are stored. -/
def loadAllData (ratingsData : FetchVal PlayerRec) (historyData : FetchVal (List Char)) :
    AppSt :=
  match ratingsData, historyData with
  | .arr rs, .arr hs =>
    { currentRatings := ratingsWithChanges rs, ratingHistory := hs,
      error := none, loading := false }
  | _, _ =>
    { currentRatings := [], ratingHistory := [],
      error := some (chars
        "Could not connect to the backend API. Please ensure the \x27api.py\x27 server is running."),
      loading := false }

/--
C5: a failed request (rejected fetch, non-ok status, or unparseable JSON
body) makes `fetchData` return the empty array instead of propagating the
exception; and the top-level loader shows a non-empty error banner
whenever the fetched ratings or history data is not an array.
-/
theorem c5_fetch_error_handling {α : Type} (net : List Char → FetchOutcome (FetchVal α))
    (endpoint : List Char) (log : List (List Char))
    (ratingsData : FetchVal PlayerRec) (historyData : FetchVal (List Char))
    (hfail : net (API_BASE_URL ++ endpoint) = FetchOutcome.reject ∨
             (∃ b, net (API_BASE_URL ++ endpoint) = FetchOutcome.response false b) ∨
             net (API_BASE_URL ++ endpoint) = FetchOutcome.response true none)
    (hbad : ratingsData.isArr = false ∨ historyData.isArr = false) :
    (fetchData net endpoint log).2 = FetchVal.arr [] ∧
    ∃ msg, (loadAllData ratingsData historyData).error = some msg ∧ msg ≠ [] := by
  constructor
  · rw [fetchData]
    rcases hfail with h | ⟨b, h⟩ | h
    · simp [httpGet, h]
    · simp [httpGet, h]
    · simp [httpGet, h]
  · have hne : (chars
        "Could not connect to the backend API. Please ensure the \x27api.py\x27 server is running.") ≠
        ([] : List Char) := by decide
    rcases hbad with h | h
    · cases ratingsData with
      | arr rs => simp [FetchVal.isArr] at h
      | nonArray =>
        cases historyData <;> exact ⟨_, rfl, hne⟩
    · cases historyData with
      | arr hs => simp [FetchVal.isArr] at h
      | nonArray =>
        cases ratingsData <;> exact ⟨_, rfl, hne⟩

/-- Witness for `c5_fetch_error_handling`: a network that rejects every
request, and a non-array ratings value. -/
theorem c5_fetch_error_handling_witness :
    ((fun _ : List Char => (FetchOutcome.reject : FetchOutcome (FetchVal (List Char))))
        (API_BASE_URL ++ chars "/ratings/current") = FetchOutcome.reject) ∧
    (FetchVal.nonArray : FetchVal PlayerRec).isArr = false ∧
    (fetchData (fun _ => (FetchOutcome.reject : FetchOutcome (FetchVal (List Char))))
        (chars "/ratings/current") []).2 = FetchVal.arr [] ∧
    ∃ msg, (loadAllData FetchVal.nonArray (FetchVal.arr [])).error = some msg ∧ msg ≠ [] := by
  refine ⟨rfl, rfl, ?_⟩
  exact c5_fetch_error_handling (fun _ => FetchOutcome.reject) (chars "/ratings/current") []
    FetchVal.nonArray (FetchVal.arr []) (Or.inl rfl) (Or.inl rfl)

/--
C6: `fetchData` never retries: each invocation appends exactly one request
(for its endpoint) to the request log, whatever the network outcome — in
particular a failed request is never followed by a second one within the
same invocation.
-/
theorem c6_fetch_no_retry {α : Type} (net : List Char → FetchOutcome (FetchVal α))
    (endpoint : List Char) (log : List (List Char)) :
    (fetchData net endpoint log).1 = log ++ [API_BASE_URL ++ endpoint] ∧
    ((fetchData net endpoint []).1).length = 1 := by
  constructor
  · rfl
  · rfl

/--
C9: each displayed ratings row carries every field of the fetched record
through unchanged, and its per-category change is the fetched rating minus
the player's fixed manual initial rating when the player's display name
maps to one of the five known friend usernames, and `0` otherwise; the
name-to-initial-ratings lookup succeeds exactly for the five known
display names.
-/
theorem c9_rating_changes (rows : List PlayerRec) :
    List.Forall₂ (fun (p : PlayerRec) (d : DisplayRec) =>
      d.friend_name = p.friend_name ∧ d.rapid_rating = p.rapid_rating ∧
      d.blitz_rating = p.blitz_rating ∧ d.bullet_rating = p.bullet_rating ∧
      d.extra = p.extra ∧
      (∀ init, (friendUsernameMap p.friend_name).bind MANUAL_INITIAL_RATINGS = some init →
        d.rapid_change = p.rapid_rating - init.Rapid ∧
        d.blitz_change = p.blitz_rating - init.Blitz ∧
        d.bullet_change = p.bullet_rating - init.Bullet) ∧
      ((friendUsernameMap p.friend_name).bind MANUAL_INITIAL_RATINGS = none →
        d.rapid_change = 0 ∧ d.blitz_change = 0 ∧ d.bullet_change = 0))
      rows (ratingsWithChanges rows) ∧
    (∀ name, ((friendUsernameMap name).bind MANUAL_INITIAL_RATINGS).isSome = true ↔
      name ∈ [chars "Ulysse", chars "Simon", chars "Adrien", chars "Alex", chars "Kevin"]) := by
  constructor
  · rw [ratingsWithChanges, List.forall₂_map_right_iff]
    rw [List.forall₂_same]
    intro p hp
    refine ⟨rfl, rfl, rfl, rfl, rfl, ?_, ?_⟩
    · intro init hinit
      simp [hinit]
    · intro hnone
      simp [hnone]
  · intro name
    by_cases h1 : name = chars "Ulysse"
    · subst h1; decide
    · by_cases h2 : name = chars "Simon"
      · subst h2; decide
      · by_cases h3 : name = chars "Adrien"
        · subst h3; decide
        · by_cases h4 : name = chars "Alex"
          · subst h4; decide
          · by_cases h5 : name = chars "Kevin"
            · subst h5; decide
            · have hmap : friendUsernameMap name = none := by
                rw [friendUsernameMap, FRIENDS]
                simp only [List.foldl]
                rw [if_neg h5, if_neg h4, if_neg h3, if_neg h2, if_neg h1]
              rw [hmap]
              simp [h1, h2, h3, h4, h5]

/-- A concrete fetched ratings row. -/
def pSimon : PlayerRec where
  friend_name := chars "Simon"
  rapid_rating := 1100
  blitz_rating := 500
  bullet_rating := 700
  extra := [(chars "k", chars "v")]

/-- Witness for `c9_rating_changes` at a concrete fetched row. -/
theorem c9_rating_changes_witness :
    List.Forall₂ (fun (p : PlayerRec) (d : DisplayRec) =>
      d.friend_name = p.friend_name ∧ d.rapid_rating = p.rapid_rating ∧
      d.blitz_rating = p.blitz_rating ∧ d.bullet_rating = p.bullet_rating ∧
      d.extra = p.extra ∧
      (∀ init, (friendUsernameMap p.friend_name).bind MANUAL_INITIAL_RATINGS = some init →
        d.rapid_change = p.rapid_rating - init.Rapid ∧
        d.blitz_change = p.blitz_rating - init.Blitz ∧
        d.bullet_change = p.bullet_rating - init.Bullet) ∧
      ((friendUsernameMap p.friend_name).bind MANUAL_INITIAL_RATINGS = none →
        d.rapid_change = 0 ∧ d.blitz_change = 0 ∧ d.bullet_change = 0))
      [pSimon] (ratingsWithChanges [pSimon]) ∧
    (((friendUsernameMap (chars "Simon")).bind MANUAL_INITIAL_RATINGS).isSome = true ↔
      chars "Simon" ∈ [chars "Ulysse", chars "Simon", chars "Adrien", chars "Alex",
        chars "Kevin"]) ∧
    (friendUsernameMap (chars "Simon")).bind MANUAL_INITIAL_RATINGS =
      some ⟨1006, 413, 716⟩ ∧
    ratingsWithChanges [pSimon] =
      [⟨chars "Simon", 1100, 500, 700, [(chars "k", chars "v")], 94, 87, -16⟩] :=
  ⟨(c9_rating_changes [pSimon]).1, (c9_rating_changes [pSimon]).2 (chars "Simon"),
   by decide, by decide⟩

/-!
## `fetchPlayerAnalysis` local-storage caching
-/

/-- A cached player-analysis entry as stored in localStorage:
`{ data, timestamp }`. -/
structure CacheEntry (α : Type) where
  data : α
  timestamp : Int
deriving DecidableEq

/-- `const cacheKey = \`playerAnalysis_${username}\`;`. -/
def cacheKeyOf (username : List Char) : List Char :=
  chars "playerAnalysis_" ++ username

/--
The caching skeleton of `fetchPlayerAnalysis` (`src/App.js`): if
localStorage holds an entry under the username's key whose timestamp is
less than 24 hours old, return its data with no network activity and the
store untouched; otherwise perform the network fetch (`fresh` is its
outcome — `none` models the catch-all failure path which returns `null`
and stores nothing) and, on success, store the new result with the
current timestamp under the same key.  Result: the returned value, the
updated store, and whether any network request was performed.
-/
def fetchPlayerAnalysis {α : Type} (store : List Char → Option (CacheEntry α))
    (now : Int) (fresh : Option α) (username : List Char) :
    Option α × (List Char → Option (CacheEntry α)) × Bool :=
  let cacheHit :=
    match store (cacheKeyOf username) with
    | some entry =>
      if now - entry.timestamp < 24 * 60 * 60 * 1000 then some entry.data else none
    | none => none
  match cacheHit with
  | some data => (some data, store, false)
  | none =>
    match fresh with
    | some result =>
      (some result,
       fun k => if k = cacheKeyOf username then some ⟨result, now⟩ else store k,
       true)
    | none => (none, store, true)

/--
C8: with a cached entry less than 24 hours old, `fetchPlayerAnalysis`
returns the cached data unchanged, performs no network request and leaves
the store untouched; with no cached entry (or a stale one), it performs
the fetch and, when the fetch succeeds, returns the fresh result and
stores it with the current timestamp under the same cache key.
-/
theorem c8_analysis_cache {α : Type} (store : List Char → Option (CacheEntry α))
    (now : Int) (fresh : Option α) (username : List Char) (entry : CacheEntry α) :
    (store (cacheKeyOf username) = some entry →
     now - entry.timestamp < 24 * 60 * 60 * 1000 →
     fetchPlayerAnalysis store now fresh username = (some entry.data, store, false)) ∧
    ((store (cacheKeyOf username) = none ∨
      (store (cacheKeyOf username) = some entry ∧
        ¬ now - entry.timestamp < 24 * 60 * 60 * 1000)) →
     ∀ result, fresh = some result →
       (fetchPlayerAnalysis store now fresh username).1 = some result ∧
       (fetchPlayerAnalysis store now fresh username).2.1 (cacheKeyOf username) =
         some ⟨result, now⟩ ∧
       (fetchPlayerAnalysis store now fresh username).2.2 = true) := by
  constructor
  · intro hs hvalid
    rw [fetchPlayerAnalysis.eq_def]
    simp only [hs, if_pos hvalid]
  · intro hmiss result hres
    have hhit : (match store (cacheKeyOf username) with
        | some entry =>
          if now - entry.timestamp < 24 * 60 * 60 * 1000 then some entry.data else none
        | none => none) = (none : Option α) := by
      rcases hmiss with h | ⟨h, hstale⟩
      · simp [h]
      · simp only [h]
        rw [if_neg hstale]
    rw [fetchPlayerAnalysis.eq_def]
    simp only [hhit, hres]
    simp

/-- Witness for `c8_analysis_cache`: a concrete store with a fresh entry
(first part) and an empty store with a successful fetch (second part). -/
theorem c8_analysis_cache_witness :
    ((fun k => if k = cacheKeyOf (chars "kevor24")
        then some (⟨chars "cached-data", (1000 : Int)⟩ : CacheEntry (List Char)) else none)
      (cacheKeyOf (chars "kevor24")) = some ⟨chars "cached-data", 1000⟩ ∧
     (1500 : Int) - 1000 < 24 * 60 * 60 * 1000 ∧
     fetchPlayerAnalysis
       (fun k => if k = cacheKeyOf (chars "kevor24")
         then some (⟨chars "cached-data", (1000 : Int)⟩ : CacheEntry (List Char)) else none)
       1500 (some (chars "fresh-data")) (chars "kevor24") =
       (some (chars "cached-data"),
        (fun k => if k = cacheKeyOf (chars "kevor24")
          then some (⟨chars "cached-data", (1000 : Int)⟩ : CacheEntry (List Char)) else none),
        false)) ∧
    ((fetchPlayerAnalysis (fun _ => (none : Option (CacheEntry (List Char))))
        2000 (some (chars "fresh-data")) (chars "kevor24")).1 = some (chars "fresh-data") ∧
     (fetchPlayerAnalysis (fun _ => (none : Option (CacheEntry (List Char))))
        2000 (some (chars "fresh-data")) (chars "kevor24")).2.1 (cacheKeyOf (chars "kevor24")) =
       some ⟨chars "fresh-data", 2000⟩ ∧
     (fetchPlayerAnalysis (fun _ => (none : Option (CacheEntry (List Char))))
        2000 (some (chars "fresh-data")) (chars "kevor24")).2.2 = true) := by
  constructor
  · refine ⟨by simp, by decide, ?_⟩
    exact (c8_analysis_cache
      (fun k => if k = cacheKeyOf (chars "kevor24")
        then some (⟨chars "cached-data", (1000 : Int)⟩ : CacheEntry (List Char)) else none)
      1500 (some (chars "fresh-data")) (chars "kevor24")
      ⟨chars "cached-data", 1000⟩).1 (by simp) (by decide)
  · exact (c8_analysis_cache (fun _ => (none : Option (CacheEntry (List Char))))
      2000 (some (chars "fresh-data")) (chars "kevor24")
      ⟨chars "irrelevant", 0⟩).2 (Or.inl rfl) (chars "fresh-data") rfl

/-!
## ECO opening lookup (`getEcoData` / `getOpeningFromEco`)
-/

/-- `.replace(/\[%clk [^\]]*\]/g, '')` from `getOpeningFromEco`'s
pre-clean: delete each `[%clk ` tag through its closing bracket.  An
occurrence with no later `]` can never match (nor can any later
occurrence), so the rest is kept verbatim. -/
def stripClk (s : List Char) : List Char :=
  match s with
  | '[' :: '%' :: 'c' :: 'l' :: 'k' :: ' ' :: r =>
    if (r.dropWhile (· ≠ ']')).isEmpty then s
    else stripClk (r.dropWhile (· ≠ ']')).tail
  | x :: r => x :: stripClk r
  | [] => []
termination_by s.length
decreasing_by
  · simp only [List.length_cons]
    have h1 : (List.dropWhile (· ≠ ']') r).tail.length ≤ r.length := by
      rw [List.length_tail]
      exact le_trans (Nat.sub_le _ _) (List.dropWhile_sublist _).length_le
    omega
  · simp

/-- `.replace(/\[%eval [^\]]*\]/g, '')`, same shape as `stripClk`. -/
def stripEvalTag (s : List Char) : List Char :=
  match s with
  | '[' :: '%' :: 'e' :: 'v' :: 'a' :: 'l' :: ' ' :: r =>
    if (r.dropWhile (· ≠ ']')).isEmpty then s
    else stripEvalTag (r.dropWhile (· ≠ ']')).tail
  | x :: r => x :: stripEvalTag r
  | [] => []
termination_by s.length
decreasing_by
  · simp only [List.length_cons]
    have h1 : (List.dropWhile (· ≠ ']') r).tail.length ≤ r.length := by
      rw [List.length_tail]
      exact le_trans (Nat.sub_le _ _) (List.dropWhile_sublist _).length_le
    omega
  · simp

/-- The PGN pre-clean of `getOpeningFromEco`: remove `[%clk …]` and
`[%eval …]` tags, then trim. -/
def precleanPgn (p : List Char) : List Char :=
  jsTrim (stripEvalTag (stripClk p))

/-- One data line of the Lichess ECO TSV:
`const [, name, , fen] = line.split('\t'); if (fen) { key = fen.split(' ')[0]; … }`.
Returns the FEN board-layout key (the text before the first space of the
FEN field) and the opening name, or nothing when the line has no truthy
FEN field. -/
def ecoLineKeyName (line : List Char) : Option (List Char × List Char) :=
  match (line.splitOn '\t').get? 3, (line.splitOn '\t').get? 1 with
  | some fen, some nm =>
    if fen.isEmpty then none else some (fen.takeWhile (· ≠ ' '), nm)
  | _, _ => none

/-- `text.split('\n').slice(1)`: the TSV lines without the header. -/
def dataLines (tsv : List Char) : List (List Char) :=
  (tsv.splitOn '\n').drop 1

/-- One step of the ECO map build:
`if (!ecoMap[fenKey]) { ecoMap[fenKey] = name; }` — the name is stored
when the key is absent or holds a falsy (empty) name. -/
def buildEcoMapStep (m : List Char → Option (List Char)) (line : List Char) :
    List Char → Option (List Char) :=
  match ecoLineKeyName line with
  | some (k, nm) =>
    match m k with
    | none => fun k2 => if k2 = k then some nm else m k2
    | some v => if v.isEmpty then (fun k2 => if k2 = k then some nm else m k2) else m
  | none => m

/-- The ECO map built by `getEcoData` from the fetched TSV text. -/
def ecoMapOfTsv (tsv : List Char) : List Char → Option (List Char) :=
  (dataLines tsv).foldl buildEcoMapStep (fun _ => none)

/-- Modelled from the spec: lookup keyed "by the FEN board-layout prefix
…, keeping the first name seen per key" — the name on the first data line
whose FEN prefix equals the key. -/
def ecoFirstNameSpec (tsv : List Char) (key : List Char) : Option (List Char) :=
  (dataLines tsv).findSome? (fun line =>
    match ecoLineKeyName line with
    | some (k, nm) => if k = key then some nm else none
    | none => none)

/-- Object-property read on the parsed headers (`chess.header()`). -/
def lookupHeader (headers : List (List Char × List Char)) (k : List Char) :
    Option (List Char) :=
  (headers.find? (fun pr => pr.1 = k)).map Prod.snd

/-- `name.split(':')[0].trim()`. -/
def fmtOpeningName (nm : List Char) : List Char :=
  jsTrim (nm.takeWhile (· ≠ ':'))

/-- The `headers.ECOUrl` branch of `getOpeningFromEco`: take the last
segment of the URL, percent-decode it (a throwing `decodeURIComponent`
falls through), and replace dashes by spaces. -/
def ecoUrlBranch (lib : ChessLib) (headers : List (List Char × List Char)) :
    Option (List Char) :=
  match lookupHeader headers (chars "ECOUrl") with
  | some u =>
    if u.isEmpty then none
    else
      match lib.decodeURI ((u.splitOn '/').getLastD []) with
      | some slug => some (slug.map (fun ch => if ch = '-' then ' ' else ch))
      | none => none
  | none => none

/-- The `headers.Opening` branch of `getOpeningFromEco`: used when
truthy, not `'?'`, and not containing `'custom'` (case-insensitively). -/
def openingBranch (headers : List (List Char × List Char)) : Option (List Char) :=
  match lookupHeader headers (chars "Opening") with
  | some op =>
    if op.isEmpty then none
    else if op = chars "?" then none
    else if containsSeq (chars "custom") (op.map Char.toLower) then none
    else some (fmtOpeningName op)
  | none => none

/-- `const startingFen = headers.FEN || new Chess().fen();`. -/
def startingFenOf (lib : ChessLib) (headers : List (List Char × List Char)) :
    List Char :=
  match lookupHeader headers (chars "FEN") with
  | some f => if f.isEmpty then lib.initFen else f
  | none => lib.initFen

/-- JS truthiness of a looked-up map value: `if (ecoMap[fenKey])` is
false both for a missing key and for an empty stored name. -/
def truthyName : Option (List Char) → Bool
  | some nm => !nm.isEmpty
  | none => false

/-- The fallback loop of `getOpeningFromEco`: replay at most `fuel` moves
(the code uses `Math.min(history.length, 20)`), returning the map's name
(formatted) for the first position whose FEN board-layout prefix holds a
truthy name — `if (ecoMap[fenKey])` skips a missing key and also an
empty stored name, and the walk continues. -/
def walkEco (lib : ChessLib) (ecoMap : List Char → Option (List Char)) :
    Nat → List Char → List (List Char) → Option (List Char)
  | 0, _, _ => none
  | _ + 1, _, [] => none
  | fuel + 1, fen, san :: rest =>
    let fen2 := lib.step fen san
    match ecoMap (fen2.takeWhile (· ≠ ' ')) with
    | some nm => if nm.isEmpty then walkEco lib ecoMap fuel fen2 rest
                 else some (fmtOpeningName nm)
    | none => walkEco lib ecoMap fuel fen2 rest

/-- The successive positions of the replayed game: the FEN after each
move. -/
def posList (lib : ChessLib) (fen : List Char) : List (List Char) → List (List Char)
  | [] => []
  | san :: rest =>
    let fen2 := lib.step fen san
    fen2 :: posList lib fen2 rest

/-- First position of the list whose FEN prefix holds a truthy (present
and non-empty) name in the map, yielding the formatted name; falsy
entries are skipped like the code's truthiness check. -/
def firstHitName (ecoMap : List Char → Option (List Char)) :
    List (List Char) → Option (List Char)
  | [] => none
  | f :: rest =>
    match ecoMap (f.takeWhile (· ≠ ' ')) with
    | some nm => if nm.isEmpty then firstHitName ecoMap rest
                 else some (fmtOpeningName nm)
    | none => firstHitName ecoMap rest

/--
`getOpeningFromEco(pgn, ecoMap)` (`src/App.js`): pre-clean and parse the
PGN (`'Invalid PGN'` on failure); prefer the `ECOUrl` header, then a
usable `Opening` header; otherwise replay at most the first 20 moves from
the game's starting FEN and return the ECO map's name (before `':'`,
trimmed) for the first matching position, or `'Unknown Opening'`.
-/
def getOpeningFromEco (lib : ChessLib) (pgn : List Char)
    (ecoMap : List Char → Option (List Char)) : List Char :=
  match lib.parse (precleanPgn pgn) with
  | none => chars "Invalid PGN"
  | some g =>
    match ecoUrlBranch lib g.headers with
    | some r => r
    | none =>
      match openingBranch g.headers with
      | some r => r
      | none =>
        match walkEco lib ecoMap 20 (startingFenOf lib g.headers) g.sans with
        | some r => r
        | none => chars "Unknown Opening"

theorem ecoFold_lookup (lines : List (List Char)) (m : List Char → Option (List Char))
    (hlines : ∀ line ∈ lines, ∀ k nm, ecoLineKeyName line = some (k, nm) → nm ≠ [])
    (hm : ∀ k v, m k = some v → v ≠ []) (key : List Char) :
    lines.foldl buildEcoMapStep m key =
      (match m key with
       | some v => some v
       | none => lines.findSome? (fun line =>
           match ecoLineKeyName line with
           | some (k, nm) => if k = key then some nm else none
           | none => none)) := by
  induction lines generalizing m with
  | nil =>
    cases hmk : m key <;> simp [hmk]
  | cons line rest ih =>
    rw [List.foldl_cons]
    simp only [List.findSome?_cons]
    cases hkn : ecoLineKeyName line with
    | none =>
      rw [show buildEcoMapStep m line = m by rw [buildEcoMapStep, hkn]]
      rw [ih m (fun l hl => hlines l (List.mem_cons_of_mem _ hl)) hm]
    | some pr =>
      obtain ⟨k, nm⟩ := pr
      have hnm : nm ≠ [] := hlines line (List.mem_cons_self ..) k nm hkn
      cases hmk : m k with
      | none =>
        have hstep : buildEcoMapStep m line =
            fun k2 => if k2 = k then some nm else m k2 := by
          simp only [buildEcoMapStep, hkn, hmk]
        rw [hstep]
        rw [ih _ (fun l hl => hlines l (List.mem_cons_of_mem _ hl))
          (fun k2 v hv => by
            by_cases hk2 : k2 = k
            · simp only [hk2, if_true, Option.some.injEq] at hv
              exact hv ▸ hnm
            · simp only [if_neg hk2] at hv
              exact hm k2 v hv)]
        by_cases hkey : k = key
        · subst hkey
          simp [hmk]
        · have h1 : ¬ key = k := fun hc => hkey hc.symm
          simp only [if_neg h1, if_neg hkey]
      | some v =>
        have hv : v ≠ [] := hm k v hmk
        have hstep : buildEcoMapStep m line = m := by
          simp only [buildEcoMapStep, hkn, hmk]
          rw [if_neg (by simpa [List.isEmpty_iff] using hv)]
        rw [hstep]
        rw [ih m (fun l hl => hlines l (List.mem_cons_of_mem _ hl)) hm]
        by_cases hkey : k = key
        · subst hkey
          simp [hmk]
        · cases hmkey : m key with
          | some w => simp [hmkey]
          | none => simp [hmkey, hkey]

theorem walkEco_eq (lib : ChessLib) (ecoMap : List Char → Option (List Char))
    (sans : List (List Char)) : ∀ (fuel : Nat) (fen : List Char),
    walkEco lib ecoMap fuel fen sans =
      firstHitName ecoMap ((posList lib fen sans).take fuel) := by
  induction sans with
  | nil =>
    intro fuel fen
    cases fuel <;> simp [walkEco, posList, firstHitName]
  | cons san rest ih =>
    intro fuel fen
    cases fuel with
    | zero => simp [walkEco, firstHitName]
    | succ f =>
      cases hm : ecoMap ((lib.step fen san).takeWhile (· ≠ ' ')) with
      | some nm =>
        simp only [ne_eq, decide_not] at hm
        by_cases hne : nm.isEmpty = true
        · simp [walkEco, posList, firstHitName, List.take_succ_cons, hm, hne, ih]
        · simp [walkEco, posList, firstHitName, List.take_succ_cons, hm, hne]
      | none =>
        simp only [ne_eq, decide_not] at hm
        simp [walkEco, posList, firstHitName, List.take_succ_cons, hm, ih]

theorem firstHitName_none {ecoMap : List Char → Option (List Char)}
    {l : List (List Char)}
    (h : ∀ f ∈ l, truthyName (ecoMap (f.takeWhile (· ≠ ' '))) = false) :
    firstHitName ecoMap l = none := by
  induction l with
  | nil => rfl
  | cons f rest ih =>
    have hf := h f (List.mem_cons_self ..)
    have ihr := ih (fun g hg => h g (List.mem_cons_of_mem _ hg))
    cases hm : ecoMap (f.takeWhile (· ≠ ' ')) with
    | none =>
      simp only [firstHitName, hm]
      exact ihr
    | some nm =>
      rw [hm] at hf
      have hf2 : nm.isEmpty = true := by
        simpa [truthyName] using hf
      simp only [firstHitName, hm]
      rw [if_pos hf2]
      exact ihr

theorem firstHitName_get {ecoMap : List Char → Option (List Char)} :
    ∀ (l : List (List Char)) (i : Nat) (hi : i < l.length) (nm : List Char),
    (∀ j (hj : j < i),
      truthyName (ecoMap ((l.get ⟨j, Nat.lt_trans hj hi⟩).takeWhile (· ≠ ' '))) = false) →
    ecoMap ((l.get ⟨i, hi⟩).takeWhile (· ≠ ' ')) = some nm →
    nm.isEmpty = false →
    firstHitName ecoMap l = some (fmtOpeningName nm) := by
  intro l
  induction l with
  | nil => intro i hi; simp at hi
  | cons f rest ih =>
    intro i hi nm hprev hhit hne
    cases i with
    | zero =>
      rw [show (f :: rest).get ⟨0, hi⟩ = f from rfl] at hhit
      simp only [firstHitName, hhit, hne, Bool.false_eq_true, if_false]
    | succ i2 =>
      have h0 : truthyName (ecoMap (f.takeWhile (· ≠ ' '))) = false := by
        have := hprev 0 (Nat.succ_pos i2)
        simpa using this
      have hrest : firstHitName ecoMap rest = some (fmtOpeningName nm) :=
        ih i2 (Nat.lt_of_succ_lt_succ hi) nm
          (fun j hj => by
            have := hprev (j + 1) (Nat.succ_lt_succ hj)
            simpa using this)
          (by simpa using hhit) hne
      cases hm : ecoMap (f.takeWhile (· ≠ ' ')) with
      | none =>
        simp only [firstHitName, hm]
        exact hrest
      | some nm2 =>
        rw [hm] at h0
        have h02 : nm2.isEmpty = true := by
          simpa [truthyName] using h0
        simp only [firstHitName, hm]
        rw [if_pos h02]
        exact hrest

/--
C7: the ECO map is keyed by the FEN board-layout prefix of each TSV data
line, keeping the first name seen per key (provided the TSV's names are
non-empty, since the code's truthiness check would overwrite an empty
name); `getOpeningFromEco` returns `'Invalid PGN'` when the PGN cannot be
parsed; and — when neither the `ECOUrl` nor a usable `Opening` header
short-circuits — its fallback walks at most the first 20 moves of the
parsed game, returning the map's name (before `':'`, trimmed) for the
first position whose FEN prefix holds a truthy (present and non-empty)
name — the code's `if (ecoMap[fenKey])` skips falsy entries — and
`'Unknown Opening'` when no position within those moves matches.
-/
theorem c7_eco_opening_lookup (tsv : List Char) (lib : ChessLib) (pgn : List Char)
    (ecoMap : List Char → Option (List Char)) (g : ParsedGame) :
    ((∀ line ∈ dataLines tsv, ∀ k nm, ecoLineKeyName line = some (k, nm) → nm ≠ []) →
      ∀ key, ecoMapOfTsv tsv key = ecoFirstNameSpec tsv key) ∧
    (lib.parse (precleanPgn pgn) = none →
      getOpeningFromEco lib pgn ecoMap = chars "Invalid PGN") ∧
    (lib.parse (precleanPgn pgn) = some g →
     ecoUrlBranch lib g.headers = none →
     openingBranch g.headers = none →
     ((∀ f ∈ (posList lib (startingFenOf lib g.headers) g.sans).take 20,
         truthyName (ecoMap (f.takeWhile (· ≠ ' '))) = false) →
       getOpeningFromEco lib pgn ecoMap = chars "Unknown Opening") ∧
     (∀ i (hi : i < ((posList lib (startingFenOf lib g.headers) g.sans).take 20).length)
        (nm : List Char),
       (∀ j (hj : j < i),
         truthyName (ecoMap ((((posList lib (startingFenOf lib g.headers) g.sans).take 20).get
           ⟨j, Nat.lt_trans hj hi⟩).takeWhile (· ≠ ' '))) = false) →
       ecoMap ((((posList lib (startingFenOf lib g.headers) g.sans).take 20).get
         ⟨i, hi⟩).takeWhile (· ≠ ' ')) = some nm →
       nm.isEmpty = false →
       getOpeningFromEco lib pgn ecoMap = fmtOpeningName nm)) := by
  refine ⟨?_, ?_, ?_⟩
  · intro hnames key
    rw [ecoMapOfTsv, ecoFirstNameSpec]
    rw [ecoFold_lookup (dataLines tsv) _ hnames (fun k v hv => by simp at hv) key]
  · intro hparse
    rw [getOpeningFromEco, hparse]
  · intro hparse hurl hopen
    constructor
    · intro hnone
      rw [getOpeningFromEco, hparse]
      simp only [hurl, hopen]
      rw [walkEco_eq, firstHitName_none hnone]
    · intro i hi nm hprev hhit hne
      rw [getOpeningFromEco, hparse]
      simp only [hurl, hopen]
      rw [walkEco_eq, firstHitName_get _ i hi nm hprev hhit hne]

/-- A one-data-line ECO TSV sample. -/
def ecoTsv0 : List Char :=
  chars "eco\tname\tpgn\tepd\nB00\tKings Pawn Game: misc\t1. e4\tKP extra -"

/-- A parsed game with no headers and a single move. -/
def gW : ParsedGame where
  headers := []
  sans := [chars "e4"]

/-- A chess.js oracle that parses everything to `gW` and steps to a fixed
FEN. -/
def libW : ChessLib where
  parse := fun _ => some gW
  loadPgnE := fun _ => Except.error []
  step := fun _ _ => chars "KP after"
  initFen := chars "start fen"
  tryMove := fun _ _ => none
  decodeURI := fun _ => none

/-- A chess.js oracle whose parser rejects everything. -/
def libParseFail : ChessLib := { libW with parse := fun _ => none }

/-- A one-entry ECO map. -/
def ecoMapW : List Char → Option (List Char) :=
  fun k => if k = chars "KP" then some (chars "Kings Pawn Game: misc") else none

/-- Witness for `c7_eco_opening_lookup` at concrete inputs: the built map
agrees with the first-name spec, an unparseable PGN yields
`'Invalid PGN'`, a first-position hit yields the formatted map name, and
an always-missing map yields `'Unknown Opening'`. -/
theorem c7_eco_opening_lookup_witness :
    ecoMapOfTsv ecoTsv0 (chars "KP") = ecoFirstNameSpec ecoTsv0 (chars "KP") ∧
    getOpeningFromEco libParseFail (chars "bad pgn") (fun _ => none) = chars "Invalid PGN" ∧
    getOpeningFromEco libW (chars "1. e4") ecoMapW =
      fmtOpeningName (chars "Kings Pawn Game: misc") ∧
    getOpeningFromEco libW (chars "1. e4") (fun _ => none) = chars "Unknown Opening" := by
  refine ⟨?_, ?_, ?_, ?_⟩
  · refine (c7_eco_opening_lookup ecoTsv0 libW [] (fun _ => none) gW).1 ?_ (chars "KP")
    intro line hline k nm heq
    have hdl : dataLines ecoTsv0 =
        [chars "B00\tKings Pawn Game: misc\t1. e4\tKP extra -"] := by decide
    rw [hdl] at hline
    rw [List.mem_singleton] at hline
    subst hline
    rw [show ecoLineKeyName (chars "B00\tKings Pawn Game: misc\t1. e4\tKP extra -") =
        some (chars "KP", chars "Kings Pawn Game: misc") by decide] at heq
    simp only [Option.some.injEq, Prod.mk.injEq] at heq
    rw [← heq.2]
    decide
  · exact (c7_eco_opening_lookup [] libParseFail (chars "bad pgn")
      (fun _ => none) gW).2.1 rfl
  · exact ((c7_eco_opening_lookup [] libW (chars "1. e4") ecoMapW gW).2.2 rfl rfl rfl).2
      0 (by decide) (chars "Kings Pawn Game: misc")
      (fun j hj => absurd hj (Nat.not_lt_zero j)) (by decide) (by decide)
  · exact ((c7_eco_opening_lookup [] libW (chars "1. e4") (fun _ => none) gW).2.2
      rfl rfl rfl).1 (fun f hf => rfl)

/-!
## Favorite-openings lists (`topWhite` / `topBlack`)
-/

/-- Stable descending insertion by games count: the insertion-sort model
of ES2019's stable `Array.prototype.sort` with the comparator
`(a, b) => b[1] - a[1]`. -/
def insertByGamesDesc (x : List Char × Nat) :
    List (List Char × Nat) → List (List Char × Nat)
  | [] => [x]
  | y :: r => if y.2 < x.2 then x :: y :: r else y :: insertByGamesDesc x r

/-- `Object.entries(counts).sort((a, b) => b[1] - a[1])`: sort the
(name, games) pairs by games count, descending, stably. -/
def sortByGamesDesc (l : List (List Char × Nat)) : List (List Char × Nat) :=
  l.foldr insertByGamesDesc []

/-- `….sort((a, b) => b[1] - a[1]).slice(0, 5)` — the `topWhite` /
`topBlack` lists of `fetchPlayerAnalysis` (and the `top5` list of
`TopOpeningsList`). -/
def topOpenings (l : List (List Char × Nat)) : List (List Char × Nat) :=
  (sortByGamesDesc l).take 5

theorem chain'_insertByGamesDesc (x : List Char × Nat) (l : List (List Char × Nat))
    (h : List.Chain' (fun a b => b.2 ≤ a.2) l) :
    List.Chain' (fun a b => b.2 ≤ a.2) (insertByGamesDesc x l) := by
  induction l with
  | nil => simp [insertByGamesDesc]
  | cons y r ih =>
    rw [insertByGamesDesc]
    by_cases hxy : y.2 < x.2
    · rw [if_pos hxy]
      exact List.Chain'.cons (Nat.le_of_lt hxy) h
    · rw [if_neg hxy]
      have hyx : x.2 ≤ y.2 := Nat.le_of_not_lt hxy
      have htail : List.Chain' (fun a b => b.2 ≤ a.2) (insertByGamesDesc x r) :=
        ih (List.Chain'.tail h)
      cases r with
      | nil => exact List.chain'_pair.2 hyx
      | cons z r2 =>
        rw [insertByGamesDesc]
        rw [insertByGamesDesc] at htail
        by_cases hxz : z.2 < x.2
        · rw [if_pos hxz] at htail ⊢
          exact List.Chain'.cons hyx htail
        · rw [if_neg hxz] at htail ⊢
          exact List.Chain'.cons (List.chain'_cons.1 h).1 htail

theorem chain'_sortByGamesDesc (l : List (List Char × Nat)) :
    List.Chain' (fun a b => b.2 ≤ a.2) (sortByGamesDesc l) := by
  induction l with
  | nil => simp [sortByGamesDesc]
  | cons x r ih =>
    rw [sortByGamesDesc, List.foldr_cons]
    exact chain'_insertByGamesDesc x _ ih

/--
C10: every favorite-openings list shown in the Player Stats tab (the
sorted-and-sliced `topWhite` / `topBlack` lists) has at most 5 entries and
is sorted in nonincreasing order of games played: every adjacent pair has
the earlier games count greater than or equal to the later one.
-/
theorem c10_top_openings (l : List (List Char × Nat)) :
    (topOpenings l).length ≤ 5 ∧
    List.Chain' (fun a b => b.2 ≤ a.2) (topOpenings l) := by
  constructor
  · rw [topOpenings, List.length_take]
    exact min_le_left ..
  · exact (chain'_sortByGamesDesc l).take 5
